import Mathlib

/-!
# Tetris widget engine (src/tetriswidget.cpp)

A shallow embedding of the game engine of `TetrisWidget`: the piece with its
two rotations, the board, the placement test `tryMove`, the landing step
`pieceDropped`, the full-line scan `removeFullLines`, spawning (`newPiece`)
and the two event handlers that drive them.

Conventions of the embedding.
* C++ `int` values (coordinates, cell values, counters, the score) are
  mathematical integers. The model agrees with 32-bit `int` arithmetic as long
  as no sum leaves the range of `int`; a statement whose truth depends on that
  (the verdict of `tryMove` at an arbitrary anchor, the score after a landing)
  carries the hypothesis that the sums computed by the source do not overflow
  (`NoOverflow`, `IsInt`).
* Every subscript into `board` goes through `Board.read`, `Board.write`,
  `Board.readRow` or `Board.writeRow`, which report `Fault.outOfBounds` for an
  index outside the array instead of returning a value.
* The two unbounded loops (`removeFullLines`, `dropDown`) take an iteration
  budget and report `Fault.outOfFuel` when it is used up.
* The random shape index drawn by `newPiece` is an argument.
* Signals, dialogs and repaint requests are appended to an event log.
-/

namespace TetrisWidget

/-- Modelled from the spec: the header declaring `BoardWidth` is not among the
sources; the spec fixes the grid at 10 columns. -/
def BoardWidth : Nat := 10

/-- Modelled from the spec: the header declaring `BoardHeight` is not among the
sources; the spec fixes the grid at 20 rows. -/
def BoardHeight : Nat := 20

/-- Ways a run of the embedded code can fail to produce a value. -/
inductive Fault where
  | outOfBounds
  | outOfFuel
  deriving DecidableEq, Repr

/-- Observable effects of the widget: the `scoreChanged` signal, the
"Game Over" message box and the repaint request `update()`. -/
inductive Event where
  | scoreChanged (score : Int)
  | gameOver
  | update
  deriving DecidableEq, Repr

/-- One row of the board: `int[BoardWidth]`. -/
abbrev Row := Fin BoardWidth → Int

/-- The board: `int board[BoardHeight][BoardWidth]`, value 0 meaning empty. -/
abbrev Board := Fin BoardHeight → Row

/-- The piece: `int shape[4][4]` and a colour. -/
structure Piece where
  shape : Fin 4 → Fin 4 → Int
  color : Int

end TetrisWidget

/-- Fields of the widget that the engine reads and writes, together with the
state of the timer and the log of emitted events. -/
structure TetrisWidget where
  board : TetrisWidget.Board
  currentPiece : TetrisWidget.Piece
  currentX : Int
  currentY : Int
  score : Int
  timerActive : Bool
  events : List TetrisWidget.Event

namespace TetrisWidget

/-- Subscript check for a row index. -/
def rowIndex (y : Int) : Except Fault (Fin BoardHeight) :=
  if h : 0 ≤ y ∧ y < (BoardHeight : Int) then
    .ok ⟨y.toNat, by omega⟩
  else .error .outOfBounds

/-- Subscript check for a column index. -/
def colIndex (x : Int) : Except Fault (Fin BoardWidth) :=
  if h : 0 ≤ x ∧ x < (BoardWidth : Int) then
    .ok ⟨x.toNat, by omega⟩
  else .error .outOfBounds

/-- The read `board[y][x]`. -/
def Board.read (b : Board) (y x : Int) : Except Fault Int := do
  let r ← rowIndex y
  let c ← colIndex x
  pure (b r c)

/-- The assignment `board[y][x] = v`. -/
def Board.write (b : Board) (y x : Int) (v : Int) : Except Fault Board := do
  let r ← rowIndex y
  let c ← colIndex x
  pure (fun r2 c2 => if r2 = r ∧ c2 = c then v else b r2 c2)

/-- The row `board[y]` as a whole. -/
def Board.readRow (b : Board) (y : Int) : Except Fault Row := do
  let r ← rowIndex y
  pure (b r)

/-- Overwriting the row `board[y]` as a whole. -/
def Board.writeRow (b : Board) (y : Int) (row : Row) : Except Fault Board := do
  let r ← rowIndex y
  pure (fun r2 => if r2 = r then row else b r2)

/-- The sixteen index pairs of the nested `for i / for j` loops, in the order
the loops visit them. -/
def cells4 : List (Fin 4 × Fin 4) :=
  [(0, 0), (0, 1), (0, 2), (0, 3),
   (1, 0), (1, 1), (1, 2), (1, 3),
   (2, 0), (2, 1), (2, 2), (2, 3),
   (3, 0), (3, 1), (3, 2), (3, 3)]

/-- Source lines 66-73: `result.shape[i][j] = shape[3 - j][i]`. -/
def Piece.rotatedRight (p : Piece) : Piece :=
  { shape := fun i j => p.shape ⟨3 - j.val, by omega⟩ i
    color := p.color }

/-- Source lines 75-82: `result.shape[i][j] = shape[j][3 - i]`. -/
def Piece.rotatedLeft (p : Piece) : Piece :=
  { shape := fun i j => p.shape j ⟨3 - i.val, by omega⟩
    color := p.color }

/-- The body of the loops of `tryMove` (source lines 111-122) over the remaining
index pairs: `false` as soon as an occupied cell is out of range or lands on a
non-empty board cell, `true` when the loops run to their end. -/
def tryMoveScan (b : Board) (newPiece : Piece) (newX newY : Int) :
    List (Fin 4 × Fin 4) → Except Fault Bool
  | [] => pure true
  | (i, j) :: rest =>
    if newPiece.shape i j ≠ 0 then
      let x : Int := newX + (j.val : Int)
      let y : Int := newY + (i.val : Int)
      if x < 0 ∨ x ≥ (BoardWidth : Int) ∨ y ≥ (BoardHeight : Int) then
        pure false
      else if y ≥ 0 then do
        let c ← b.read y x
        if c ≠ 0 then pure false else tryMoveScan b newPiece newX newY rest
      else tryMoveScan b newPiece newX newY rest
    else tryMoveScan b newPiece newX newY rest

/-- Source lines 110-128: the placement test; on success the candidate becomes
the active piece and a repaint is requested. -/
def tryMove (s : TetrisWidget) (newPiece : Piece) (newX newY : Int) :
    Except Fault (Bool × TetrisWidget) := do
  let fits ← tryMoveScan s.board newPiece newX newY cells4
  if fits then
    pure (true, { s with currentPiece := newPiece, currentX := newX, currentY := newY,
                         events := s.events ++ [Event.update] })
  else
    pure (false, s)

/-- The placement condition of the specification: every occupied mask cell
`(i, j)` maps to a column `newX + j` inside the board and a row `newY + i`
above the bottom limit, and the board cell there is empty unless the row is
negative. -/
def PlacementOk (b : Board) (p : Piece) (newX newY : Int) : Prop :=
  ∀ i j : Fin 4, p.shape i j ≠ 0 →
    0 ≤ newX + (j.val : Int) ∧ newX + (j.val : Int) < (BoardWidth : Int) ∧
    newY + (i.val : Int) < (BoardHeight : Int) ∧
    (newY + (i.val : Int) < 0 ∨ b.read (newY + (i.val : Int)) (newX + (j.val : Int)) = .ok 0)

/-- Source lines 4-7: the palette, indexed by the shape index. -/
def colors : Fin 7 → Int :=
  ![0x0000FF, 0xFF0000, 0x00FF00, 0xFF00FF, 0xFFFF00, 0x00FFFF, 0xFFA500]

/-- Source lines 86-94: the seven shape tables (I, L, J, O, S, T, Z). -/
def shapes : Fin 7 → Fin 4 → Fin 4 → Int :=
  ![![![1,1,1,1], ![0,0,0,0], ![0,0,0,0], ![0,0,0,0]],
    ![![1,1,1,0], ![1,0,0,0], ![0,0,0,0], ![0,0,0,0]],
    ![![1,1,1,0], ![0,0,1,0], ![0,0,0,0], ![0,0,0,0]],
    ![![1,1,0,0], ![1,1,0,0], ![0,0,0,0], ![0,0,0,0]],
    ![![0,1,1,0], ![1,1,0,0], ![0,0,0,0], ![0,0,0,0]],
    ![![1,1,1,0], ![0,1,0,0], ![0,0,0,0], ![0,0,0,0]],
    ![![1,1,0,0], ![0,1,1,0], ![0,0,0,0], ![0,0,0,0]]]

/-- Source lines 59-63: every cell of the board is set to 0. -/
def clearBoard (s : TetrisWidget) : TetrisWidget :=
  { s with board := fun _ _ => 0 }

/-- Source lines 96-106: the shape with the drawn index becomes the active
piece at the horizontally centred top anchor; when the placement test fails
there the timer is stopped and the "Game Over" box is shown. -/
def newPiece (s : TetrisWidget) (index : Fin 7) : Except Fault TetrisWidget := do
  let s1 : TetrisWidget :=
    { s with currentPiece := { shape := shapes index, color := colors index } }
  let s2 : TetrisWidget :=
    { s1 with currentX := (BoardWidth : Int) / 2 - 2, currentY := 0 }
  let (placed, s3) ← tryMove s2 s2.currentPiece s2.currentX s2.currentY
  if !placed then
    pure { s3 with timerActive := false, events := s3.events ++ [Event.gameOver] }
  else
    pure s3

/-- The inner loop of `removeFullLines` (source lines 163-169): the row is full
when none of its `BoardWidth` cells is 0. -/
def rowFull (row : Row) : Bool :=
  (List.finRange BoardWidth).all (fun x => row x != 0)

/-- The shift loop of `removeFullLines` (source lines 172-173), started at
`yy = k`: `for (; yy > 0; --yy) memcpy(board[yy], board[yy-1], ...)`. -/
def shiftRows (b : Board) : Nat → Except Fault Board
  | 0 => pure b
  | k + 1 => do
    let src ← b.readRow (((k + 1 : Nat) : Int) - 1)
    let b1 ← b.writeRow ((k + 1 : Nat) : Int) src
    shiftRows b1 k

/-- The outer loop of `removeFullLines` (source lines 162-176) from row index
`y` with `numFullLines` rows counted so far. A full row is counted, the rows
above it are shifted down, and the `++y` of the body followed by the `--y` of
the loop header leaves `y` where it was. -/
def removeFullLinesLoop : Nat → Board → Int → Int → Except Fault (Board × Int)
  | 0, _, _, _ => .error .outOfFuel
  | fuel + 1, b, y, numFullLines =>
    if y ≥ 0 then do
      let row ← b.readRow y
      if rowFull row then do
        let b1 ← shiftRows b y.toNat
        removeFullLinesLoop fuel b1 ((y + 1) - 1) (numFullLines + 1)
      else
        removeFullLinesLoop fuel b (y - 1) numFullLines
    else
      pure (b, numFullLines)

/-- Source lines 160-182: the scan from the bottom row, then the score update,
the `scoreChanged` signal and the repaint request when a row was cleared. -/
def removeFullLines (fuel : Nat) (s : TetrisWidget) : Except Fault TetrisWidget := do
  let (b, numFullLines) ← removeFullLinesLoop fuel s.board ((BoardHeight : Int) - 1) 0
  let s1 : TetrisWidget := { s with board := b }
  if numFullLines > 0 then
    let s2 : TetrisWidget := { s1 with score := s1.score + 100 * numFullLines }
    pure { s2 with events := s2.events ++ [Event.scoreChanged s2.score, Event.update] }
  else
    pure s1

/-- The lock loops of `pieceDropped` (source lines 146-154) over the remaining
index pairs: an occupied cell with `y >= 0` writes the colour to
`board[y][x]`. -/
def lockScan (p : Piece) (currentX currentY : Int) :
    Board → List (Fin 4 × Fin 4) → Except Fault Board
  | b, [] => pure b
  | b, (i, j) :: rest =>
    if p.shape i j ≠ 0 then
      let x : Int := currentX + (j.val : Int)
      let y : Int := currentY + (i.val : Int)
      if y ≥ 0 then do
        let b1 ← b.write y x p.color
        lockScan p currentX currentY b1 rest
      else lockScan p currentX currentY b rest
    else lockScan p currentX currentY b rest

/-- Source lines 145-157: lock the active piece, remove the full lines, spawn
the next piece. -/
def pieceDropped (fuel : Nat) (s : TetrisWidget) (index : Fin 7) :
    Except Fault TetrisWidget := do
  let b ← lockScan s.currentPiece s.currentX s.currentY s.board cells4
  let s1 ← removeFullLines fuel { s with board := b }
  newPiece s1 index

/-- Source lines 136-142. -/
def oneLineDown (fuel : Nat) (s : TetrisWidget) (index : Fin 7) :
    Except Fault (Bool × TetrisWidget) := do
  let (moved, s1) ← tryMove s s.currentPiece s.currentX (s.currentY + 1)
  if !moved then do
    let s2 ← pieceDropped fuel s1 index
    pure (false, s2)
  else
    pure (true, s1)

/-- Source lines 131-133: `while (oneLineDown());` with a budget of loop
iterations; `lineFuel` is the budget handed to `removeFullLines`. -/
def dropDown (lineFuel : Nat) : Nat → TetrisWidget → Fin 7 → Except Fault TetrisWidget
  | 0, _, _ => .error .outOfFuel
  | fuel + 1, s, index => do
    let (again, s1) ← oneLineDown lineFuel s index
    if again then dropDown lineFuel fuel s1 index else pure s1

/-- The keys `keyPressEvent` distinguishes. -/
inductive Key where
  | left
  | right
  | down
  | up
  | space
  | other
  deriving DecidableEq, Repr

/-- Source lines 27-47. -/
def keyPressEvent (fuel : Nat) (s : TetrisWidget) (key : Key) (index : Fin 7) :
    Except Fault TetrisWidget :=
  match key with
  | .left => do
    let (_, s1) ← tryMove s s.currentPiece (s.currentX - 1) s.currentY
    pure s1
  | .right => do
    let (_, s1) ← tryMove s s.currentPiece (s.currentX + 1) s.currentY
    pure s1
  | .down => do
    let (_, s1) ← tryMove s s.currentPiece.rotatedRight s.currentX s.currentY
    pure s1
  | .up => do
    let (_, s1) ← tryMove s s.currentPiece.rotatedLeft s.currentX s.currentY
    pure s1
  | .space => dropDown fuel fuel s index
  | .other => pure s

/-- Source lines 50-56, for an event of the widget's own timer. -/
def timerEvent (fuel : Nat) (s : TetrisWidget) (index : Fin 7) :
    Except Fault TetrisWidget := do
  let (_, s1) ← oneLineDown fuel s index
  pure s1

/-- Source lines 10-16: the constructor. The fields it does not initialise
(`board`, `currentPiece`) are overwritten by `clearBoard` and `newPiece`
before anything reads them; they start here as zeros. -/
def construct (index : Fin 7) : Except Fault TetrisWidget := do
  let s0 : TetrisWidget :=
    { board := fun _ _ => 0
      currentPiece := { shape := fun _ _ => 0, color := 0 }
      currentX := 0
      currentY := 0
      score := 0
      timerActive := false
      events := [] }
  let s1 ← newPiece (clearBoard s0) index
  pure { s1 with timerActive := true }

/-- The commands the engine receives from its collaborators. -/
inductive Command where
  | key (k : Key)
  | tick
  deriving DecidableEq, Repr

/-- One command delivered to the widget. A stopped timer delivers no events,
so a tick reaches `timerEvent` only while the timer is active. -/
def step (fuel : Nat) (s : TetrisWidget) (c : Command) (index : Fin 7) :
    Except Fault TetrisWidget :=
  match c with
  | .key k => keyPressEvent fuel s k index
  | .tick => if s.timerActive then timerEvent fuel s index else pure s

/-- The states reachable from a fresh game by commands that run to their end,
for any drawn shape indices. -/
inductive Reachable : TetrisWidget → Prop where
  | fresh (index : Fin 7) (s : TetrisWidget) :
      construct index = .ok s → Reachable s
  | next (fuel : Nat) (s s2 : TetrisWidget) (c : Command) (index : Fin 7) :
      Reachable s → step fuel s c index = .ok s2 → Reachable s2

/-! ## Vocabulary of the statements -/

/-- Row 0, the top row of the board. -/
def topRow : Fin BoardHeight := ⟨0, by decide⟩

/-- A row is full when every column holds a non-empty cell value. -/
def IsFull (row : Row) : Prop := ∀ x : Fin BoardWidth, row x ≠ 0

instance instDecidableIsFull (row : Row) : Decidable (IsFull row) := by
  unfold IsFull
  infer_instance

/-- A row is empty when every column holds 0. -/
def IsEmptyRow (row : Row) : Prop := ∀ x : Fin BoardWidth, row x = 0

instance instDecidableIsEmptyRow (row : Row) : Decidable (IsEmptyRow row) := by
  unfold IsEmptyRow
  infer_instance

/-- The number of full rows of a board. -/
def fullRowCount (b : Board) : Nat :=
  (Finset.univ.filter (fun r : Fin BoardHeight => IsFull (b r))).card

/-- The row with index `n`, an all-zero row when `n` is not a row index. -/
def rowAt (b : Board) (n : Nat) : Row :=
  if h : n < BoardHeight then b ⟨n, h⟩ else fun _ => 0

/-- The number of full rows among the rows `0 .. k - 1`. -/
def fullBelow (b : Board) (k : Nat) : Nat :=
  Finset.sum (Finset.range k) (fun i => if rowFull (rowAt b i) then 1 else 0)

/-- The board after the shift loop started at row `k`: rows `1 .. k` hold what
rows `0 .. k - 1` held, every other row (row 0 among them) is as before. -/
def shifted (b : Board) (k : Nat) : Board :=
  fun r => if 0 < r.val ∧ r.val ≤ k then rowAt b (r.val - 1) else b r

/-- Recognises the `scoreChanged` signal in the event log. -/
def Event.isScoreChanged : Event → Bool
  | .scoreChanged _ => true
  | _ => false

/-! ## Concrete inputs -/

/-- The all-empty board. -/
def emptyBoard : Board := fun _ _ => 0

/-- The piece `newPiece` installs for a shape index. -/
def spawned (index : Fin 7) : Piece :=
  { shape := shapes index, color := colors index }

/-- An otherwise empty board whose bottom row 19 is filled with the value 7. -/
def bottomFullBoard : Board := fun r _ => if r.val = 19 then 7 else 0

/-- A board whose column 0 is occupied in every row and whose bottom row 19 is
full; no other cell is occupied. -/
def towerBoard : Board := fun r c => if r.val = 19 ∨ c.val = 0 then 7 else 0

/-- An otherwise empty board whose top row 0 is filled with the value 7. -/
def topFullBoard : Board := fun r _ => if r.val = 0 then 7 else 0

/-- A widget in the middle of a game holding the given board: the I piece at
the spawn anchor, score 0, timer running, nothing logged yet. -/
def widgetOn (b : Board) : TetrisWidget :=
  { board := b
    currentPiece := spawned 0
    currentX := 3
    currentY := 0
    score := 0
    timerActive := true
    events := [] }

/-- The active piece fits the board at its anchor. -/
def ActiveFits (s : TetrisWidget) : Prop :=
  PlacementOk s.board s.currentPiece s.currentX s.currentY

/-- What every command that runs to its end does to the score, the event log
and the running-game invariant: the score grows by a multiple of 100, the log
is extended, and if the active piece fitted while no spawn had failed it still
does. -/
def Progress (s s2 : TetrisWidget) : Prop :=
  (∃ m : Nat, s2.score = s.score + 100 * (m : Int)) ∧
  (∃ tail : List Event, s2.events = s.events ++ tail) ∧
  ((Event.gameOver ∉ s.events → ActiveFits s) → Event.gameOver ∉ s2.events → ActiveFits s2)

/-- A widget whose I piece rests on the bottom row: row 19 is occupied except
for the four cells under the piece, the rest of the board is empty. -/
def landingWidget : TetrisWidget :=
  { board := fun r c => if r.val = 19 ∧ (c.val < 3 ∨ 6 < c.val) then 7 else 0
    currentPiece := spawned 0
    currentX := 3
    currentY := 19
    score := 0
    timerActive := true
    events := [] }

/-- The fresh game whose first shape is the I piece. -/
def freshWidget : TetrisWidget :=
  { board := emptyBoard
    currentPiece := spawned 0
    currentX := 3
    currentY := 0
    score := 0
    timerActive := true
    events := [Event.update] }

/-- The fresh game after the left key. -/
def freshWidgetLeft : TetrisWidget :=
  { freshWidget with currentX := 2, events := [Event.update, Event.update] }

/-- An otherwise empty board whose two bottom rows 18 and 19 are full. -/
def twoFullBoard : Board := fun r _ => if 18 ≤ r.val then 7 else 0

/-- A sequence of commands, each with the shape index its landing would draw,
delivered one after the other. -/
def run (fuel : Nat) : TetrisWidget → List (Command × Fin 7) → Except Fault TetrisWidget
  | s, [] => pure s
  | s, (c, index) :: rest => do
    let s1 ← step fuel s c index
    run fuel s1 rest

/-- The commands that stand a piece upright (key up), shift it with the given
keys and drop it (space); `next` is the shape drawn at its landing. -/
def uprightAndDrop (moves : List Key) (next : Fin 7) : List (Command × Fin 7) :=
  ((Key.up :: moves).map (fun k => (Command.key k, (0 : Fin 7)))) ++
    [(Command.key Key.space, next)]

/-- The commands that shift a piece with the given keys and drop it. -/
def shiftAndDrop (moves : List Key) (next : Fin 7) : List (Command × Fin 7) :=
  (moves.map (fun k => (Command.key k, (0 : Fin 7)))) ++ [(Command.key Key.space, next)]

/-- A play from the fresh game `freshWidget`: five upright I pieces fill column 0
from row 19 up to row 0, two flat I pieces fill columns 1-8 of row 19, and a
sixth upright I piece is brought above column 9, ready to be dropped. -/
def towerPlan : List (Command × Fin 7) :=
  uprightAndDrop [.left, .left, .left] 0 ++ uprightAndDrop [.left, .left, .left] 0 ++
  uprightAndDrop [.left, .left, .left] 0 ++ uprightAndDrop [.left, .left, .left] 0 ++
  uprightAndDrop [.left, .left, .left] 0 ++
  shiftAndDrop [.left, .left] 0 ++ shiftAndDrop [.right, .right] 0 ++
  (uprightAndDrop [.right, .right, .right, .right, .right, .right] 0).dropLast

/-- A play from the fresh game `freshWidget` after which row 0 holds blocks in
columns 0-2 and 7-9 and a fresh I piece sits in columns 3-6 of row 0 on top of
column 4: upright I pieces and an O piece raise columns 0 and 9 to row 2 and
column 4 to row 4, an upright L piece raises column 4 to row 1, and a flat L
and a flat J piece fill the two ends of row 0. -/
def fullTopRowPlan : List (Command × Fin 7) :=
  uprightAndDrop [.left, .left, .left] 0 ++ uprightAndDrop [.left, .left, .left] 0 ++
  uprightAndDrop [.left, .left, .left] 0 ++ uprightAndDrop [.left, .left, .left] 3 ++
  shiftAndDrop [.left, .left, .left] 0 ++
  uprightAndDrop [.right, .right, .right, .right, .right, .right] 0 ++
  uprightAndDrop [.right, .right, .right, .right, .right, .right] 0 ++
  uprightAndDrop [.right, .right, .right, .right, .right, .right] 0 ++
  uprightAndDrop [.right, .right, .right, .right, .right, .right] 3 ++
  shiftAndDrop [.right, .right, .right, .right, .right] 0 ++
  uprightAndDrop [.right] 0 ++ uprightAndDrop [.right] 0 ++
  uprightAndDrop [.right] 0 ++ uprightAndDrop [.right] 1 ++
  uprightAndDrop [.right] 1 ++
  shiftAndDrop [.left, .left, .left] 2 ++
  shiftAndDrop [.right, .right, .right, .right] 0

/-- The widget is running, its active piece cannot descend, and locking it
makes row 0 full. -/
def landsOnFullTopRow (s : TetrisWidget) : Bool :=
  s.timerActive && !(s.events.contains Event.gameOver) &&
  (match tryMoveScan s.board s.currentPiece s.currentX (s.currentY + 1) cells4 with
    | .ok false => true
    | _ => false) &&
  (match lockScan s.currentPiece s.currentX s.currentY s.board cells4 with
    | .ok b1 => rowFull (b1 topRow)
    | _ => false)

/-- The landing that follows `towerPlan`: the space key clears one row, yet the
cell in row 0, column 0 is occupied before and after. -/
def clearsUnderTower (s : TetrisWidget) : Bool :=
  match step 41 s (Command.key Key.space) 0 with
  | .ok s2 =>
    !(s2.events.contains Event.gameOver) && decide (s2.score = s.score + 100) &&
    decide (s.board topRow ⟨0, by decide⟩ ≠ 0) && decide (s2.board topRow ⟨0, by decide⟩ ≠ 0) &&
    decide (s2.board ⟨1, by decide⟩ ⟨0, by decide⟩ ≠ 0)
  | .error _ => false

/-- The number of occupied cells of a piece's mask. -/
def cellCount (p : Piece) : Nat :=
  (Finset.univ.filter (fun ij : Fin 4 × Fin 4 => p.shape ij.1 ij.2 ≠ 0)).card

/-- Every occupied mask cell of the piece at anchor `(x, y)` lies inside the
board columns and above the bottom limit. -/
def InRange (p : Piece) (x y : Int) : Prop :=
  ∀ i j : Fin 4, p.shape i j ≠ 0 →
    0 ≤ x + (j.val : Int) ∧ x + (j.val : Int) < (BoardWidth : Int) ∧
    y + (i.val : Int) < (BoardHeight : Int)

instance instDecidableInRange (p : Piece) (x y : Int) : Decidable (InRange p x y) := by
  unfold InRange
  infer_instance

instance instDecidableEqExceptFault {α : Type} [DecidableEq α] :
    DecidableEq (Except Fault α)
  | .ok a, .ok b =>
    if h : a = b then isTrue (by rw [h]) else isFalse (fun hc => h (by injection hc))
  | .error e, .error f =>
    if h : e = f then isTrue (by rw [h]) else isFalse (fun hc => h (by injection hc))
  | .ok _, .error _ => isFalse (fun hc => by cases hc)
  | .error _, .ok _ => isFalse (fun hc => by cases hc)

instance instDecidablePlacementOk (b : Board) (p : Piece) (x y : Int) :
    Decidable (PlacementOk b p x y) := by
  unfold PlacementOk
  infer_instance

/-- What holds of the widget in every reachable state, failed spawn or not:
the anchor row is non-negative, the active piece lies inside the board, its
mask has four occupied cells, its colour is a palette colour, and the timer is
stopped once the "Game Over" box has been shown. -/
def Sound (s : TetrisWidget) : Prop :=
  0 ≤ s.currentY ∧
  InRange s.currentPiece s.currentX s.currentY ∧
  cellCount s.currentPiece = 4 ∧
  (∃ index : Fin 7, s.currentPiece.color = colors index) ∧
  (Event.gameOver ∈ s.events → s.timerActive = false)

/-- The board in which exactly the cells the spawned shape covers at anchor
(3, 0) are empty and every other cell is occupied (value 7). -/
def spawnGapBoard (index : Fin 7) : Board :=
  fun r c =>
    if ∃ i j : Fin 4, (spawned index).shape i j ≠ 0 ∧ i.val = r.val ∧ 3 + j.val = c.val then 0
    else 7

/-- A play from the fresh game `freshWidget` that ends in a failed spawn: the I
piece and nine O pieces are dropped at the spawn column, so columns 3 and 4
are occupied from row 19 up to row 1, and the tenth O piece cannot be placed. -/
def gameOverPlan : List (Command × Fin 7) :=
  List.replicate 10 (Command.key Key.space, (3 : Fin 7))

/-- The widget has shown the "Game Over" box and its timer is stopped, yet the
down key turns the active piece and the space key writes into row 0 of the
board. -/
def actsAfterGameOver (s : TetrisWidget) : Bool :=
  s.events.contains Event.gameOver && !s.timerActive &&
  decide (s.currentPiece.shape 0 2 = 0) && decide (s.board topRow ⟨3, by decide⟩ = 0) &&
  (match step 41 s (Command.key Key.down) 0 with
    | .ok s2 => decide (s2.currentPiece.shape 0 2 ≠ 0)
    | .error _ => false) &&
  (match step 41 s (Command.key Key.space) 0 with
    | .ok s3 => decide (s3.board topRow ⟨3, by decide⟩ ≠ 0)
    | .error _ => false)

/-- The rows of a board from top (row 0) to bottom. -/
def boardRows (b : Board) : List Row := List.ofFn b

/-- The list-level compaction, written from the words of the claim: the rows
that are not full are kept in their original order at the bottom, and the
vacated rows at the top, one per full row, are filled with copies of `top`
(the original row 0). -/
def compactedRows (rows : List Row) (top : Row) : List Row :=
  List.replicate (rows.countP (fun row => decide (IsFull row))) top ++
    rows.filter (fun row => !decide (IsFull row))

/-- The board row of the lowest occupied cell of a piece whose anchor row is
`y`: `y` plus the largest index of a mask row with an occupied cell. -/
def lowestRow (p : Piece) (y : Int) : Int :=
  y + (((Finset.univ.filter (fun i : Fin 4 => ∃ j : Fin 4, p.shape i j ≠ 0)).sup
    (fun i => i.val) : Nat) : Int)

/-- The widget after `k` successful one-row descents: the anchor row has grown
by `k` and `k` repaints were requested. -/
def descended (s : TetrisWidget) (k : Nat) : TetrisWidget :=
  { s with currentY := s.currentY + (k : Int),
           events := s.events ++ List.replicate k Event.update }

/-- A widget on the empty board whose I piece lies flat on the bottom row 19. -/
def bottomWidget : TetrisWidget :=
  { widgetOn emptyBoard with currentY := 19 }

/-! ## The range of `int` -/

/-- The largest value of a 32-bit `int`. -/
def INT_MAX : Int := 2147483647

/-- The smallest value of a 32-bit `int`. -/
def INT_MIN : Int := -2147483648

/-- The value is representable as a 32-bit `int`. -/
def IsInt (z : Int) : Prop := INT_MIN ≤ z ∧ z ≤ INT_MAX

instance instDecidableIsInt (z : Int) : Decidable (IsInt z) := by
  unfold IsInt
  infer_instance

/-- The sums `newX + j` and `newY + i` that `tryMove` computes for the occupied
cells of the candidate do not overflow: the anchor is a pair of `int` values
and every such sum is at most `INT_MAX` (it cannot fall below `INT_MIN`, since
`i` and `j` are not negative). -/
def NoOverflow (p : Piece) (newX newY : Int) : Prop :=
  IsInt newX ∧ IsInt newY ∧
  ∀ i j : Fin 4, p.shape i j ≠ 0 →
    newX + (j.val : Int) ≤ INT_MAX ∧ newY + (i.val : Int) ≤ INT_MAX

instance instDecidableNoOverflow (p : Piece) (newX newY : Int) :
    Decidable (NoOverflow p newX newY) := by
  unfold NoOverflow
  infer_instance

/-! # Theorems -/

/-! ## Basic facts about subscripts -/

theorem rowIndex_ok (r : Fin BoardHeight) : rowIndex (r.val : Int) = .ok r := by
  have h : 0 ≤ (r.val : Int) ∧ (r.val : Int) < (BoardHeight : Int) :=
    ⟨by omega, by exact_mod_cast r.isLt⟩
  simp [rowIndex, h]

theorem colIndex_ok (c : Fin BoardWidth) : colIndex (c.val : Int) = .ok c := by
  have h : 0 ≤ (c.val : Int) ∧ (c.val : Int) < (BoardWidth : Int) :=
    ⟨by omega, by exact_mod_cast c.isLt⟩
  simp [colIndex, h]

theorem rowIndex_eq_ok {y : Int} {r : Fin BoardHeight} (h : rowIndex y = .ok r) :
    y = (r.val : Int) := by
  unfold rowIndex at h
  split at h
  · rename_i hy
    injection h with h
    subst h
    simp [Int.toNat_of_nonneg hy.1]
  · cases h

theorem colIndex_eq_ok {x : Int} {c : Fin BoardWidth} (h : colIndex x = .ok c) :
    x = (c.val : Int) := by
  unfold colIndex at h
  split at h
  · rename_i hx
    injection h with h
    subst h
    simp [Int.toNat_of_nonneg hx.1]
  · cases h

theorem rowIndex_inRange {y : Int} (h0 : 0 ≤ y) (h1 : y < (BoardHeight : Int)) :
    ∃ r : Fin BoardHeight, rowIndex y = .ok r ∧ (r.val : Int) = y := by
  refine ⟨⟨y.toNat, by omega⟩, ?_, ?_⟩
  · simp [rowIndex, h0, h1]
  · simp [Int.toNat_of_nonneg h0]

theorem colIndex_inRange {x : Int} (h0 : 0 ≤ x) (h1 : x < (BoardWidth : Int)) :
    ∃ c : Fin BoardWidth, colIndex x = .ok c ∧ (c.val : Int) = x := by
  refine ⟨⟨x.toNat, by omega⟩, ?_, ?_⟩
  · simp [colIndex, h0, h1]
  · simp [Int.toNat_of_nonneg h0]

theorem rowIndex_outOfRange {y : Int} (h : ¬ (0 ≤ y ∧ y < (BoardHeight : Int))) :
    rowIndex y = .error .outOfBounds := by
  simp [rowIndex, h]

theorem read_at (b : Board) (r : Fin BoardHeight) (c : Fin BoardWidth) :
    b.read (r.val : Int) (c.val : Int) = .ok (b r c) := by
  simp [Board.read, rowIndex_ok, colIndex_ok, bind, Except.bind, pure, Except.pure]

theorem read_inRange (b : Board) {y x : Int} (hy0 : 0 ≤ y) (hy1 : y < (BoardHeight : Int))
    (hx0 : 0 ≤ x) (hx1 : x < (BoardWidth : Int)) :
    ∃ (r : Fin BoardHeight) (c : Fin BoardWidth),
      (r.val : Int) = y ∧ (c.val : Int) = x ∧ b.read y x = .ok (b r c) := by
  obtain ⟨r, _, hr⟩ := rowIndex_inRange hy0 hy1
  obtain ⟨c, _, hc⟩ := colIndex_inRange hx0 hx1
  exact ⟨r, c, hr, hc, by rw [← hr, ← hc]; exact read_at b r c⟩

theorem mem_cells4 (i j : Fin 4) : (i, j) ∈ cells4 := by
  revert i j
  decide

/-! ## The placement test -/

theorem tryMoveScan_spec (b : Board) (p : Piece) (newX newY : Int) (l : List (Fin 4 × Fin 4)) :
    ∃ r : Bool, tryMoveScan b p newX newY l = .ok r ∧
      (r = true ↔ ∀ ij ∈ l, p.shape ij.1 ij.2 ≠ 0 →
        0 ≤ newX + (ij.2.val : Int) ∧ newX + (ij.2.val : Int) < (BoardWidth : Int) ∧
        newY + (ij.1.val : Int) < (BoardHeight : Int) ∧
        (newY + (ij.1.val : Int) < 0 ∨
          b.read (newY + (ij.1.val : Int)) (newX + (ij.2.val : Int)) = .ok 0)) := by
  induction l with
  | nil => exact ⟨true, rfl, by simp⟩
  | cons ij rest ih =>
    obtain ⟨i, j⟩ := ij
    obtain ⟨r, hr, hiff⟩ := ih
    unfold tryMoveScan
    by_cases hocc : p.shape i j ≠ 0
    · rw [if_pos hocc]
      by_cases hout : newX + (j.val : Int) < 0 ∨ newX + (j.val : Int) ≥ (BoardWidth : Int) ∨
          newY + (i.val : Int) ≥ (BoardHeight : Int)
      · refine ⟨false, by simp only [if_pos hout]; rfl, ?_⟩
        constructor
        · intro h; cases h
        · intro h
          have := h (i, j) (List.mem_cons_self _ _) hocc
          dsimp only at this
          omega
      · simp only [if_neg hout]
        by_cases hy : newY + (i.val : Int) ≥ 0
        · simp only [if_pos hy]
          obtain ⟨r0, c0, hr0, hc0, hread⟩ :=
            read_inRange b hy (by omega) (show 0 ≤ newX + (j.val : Int) by omega) (by omega)
          by_cases hcell : b r0 c0 ≠ 0
          · refine ⟨false, by simp [hread, bind, Except.bind, hcell, pure, Except.pure], ?_⟩
            constructor
            · intro h; cases h
            · intro h
              have h4 := (h (i, j) (List.mem_cons_self _ _) hocc).2.2.2
              dsimp only at h4
              rcases h4 with h4 | h4
              · omega
              · rw [hread] at h4
                injection h4 with h4
                exact absurd h4 hcell
          · have hz : b r0 c0 = 0 := by simpa using hcell
            refine ⟨r, by simp [hread, bind, Except.bind, hz, hr], ?_⟩
            rw [hiff]
            constructor
            · intro h ij hmem hs
              rcases List.mem_cons.1 hmem with heq | hmem
              · subst heq
                dsimp only
                exact ⟨by omega, by omega, by omega, Or.inr (by rw [hread, hz])⟩
              · exact h ij hmem hs
            · intro h ij hmem hs
              exact h ij (List.mem_cons_of_mem _ hmem) hs
        · simp only [if_neg hy]
          refine ⟨r, hr, ?_⟩
          rw [hiff]
          constructor
          · intro h ij hmem hs
            rcases List.mem_cons.1 hmem with heq | hmem
            · subst heq
              dsimp only
              exact ⟨by omega, by omega, by omega, Or.inl (by omega)⟩
            · exact h ij hmem hs
          · intro h ij hmem hs
            exact h ij (List.mem_cons_of_mem _ hmem) hs
    · rw [if_neg hocc]
      refine ⟨r, hr, ?_⟩
      rw [hiff]
      constructor
      · intro h ij hmem hs
        rcases List.mem_cons.1 hmem with heq | hmem
        · subst heq
          exact absurd hs hocc
        · exact h ij hmem hs
      · intro h ij hmem hs
        exact h ij (List.mem_cons_of_mem _ hmem) hs

theorem tryMoveScan_cells4 (b : Board) (p : Piece) (newX newY : Int) :
    ∃ r : Bool, tryMoveScan b p newX newY cells4 = .ok r ∧
      (r = true ↔ PlacementOk b p newX newY) := by
  obtain ⟨r, hr, hiff⟩ := tryMoveScan_spec b p newX newY cells4
  refine ⟨r, hr, ?_⟩
  rw [hiff]
  constructor
  · intro h i j hs
    exact h (i, j) (mem_cells4 i j) hs
  · intro h ij _ hs
    exact h ij.1 ij.2 hs

theorem tryMove_ok_true (s : TetrisWidget) (p : Piece) (newX newY : Int)
    (h : PlacementOk s.board p newX newY) :
    tryMove s p newX newY =
      .ok (true, { s with currentPiece := p, currentX := newX, currentY := newY,
                          events := s.events ++ [Event.update] }) := by
  obtain ⟨r, hr, hiff⟩ := tryMoveScan_cells4 s.board p newX newY
  have hrt : r = true := hiff.2 h
  subst hrt
  simp [tryMove, hr, bind, Except.bind, pure, Except.pure]

theorem tryMove_ok_false (s : TetrisWidget) (p : Piece) (newX newY : Int)
    (h : ¬ PlacementOk s.board p newX newY) :
    tryMove s p newX newY = .ok (false, s) := by
  obtain ⟨r, hr, hiff⟩ := tryMoveScan_cells4 s.board p newX newY
  have hrf : r = false := by
    cases r
    · rfl
    · exact absurd (hiff.1 rfl) h
  subst hrf
  simp [tryMove, hr, bind, Except.bind, pure, Except.pure]

/-- C1. For every widget state, every 4x4 mask and every integer anchor at
which the sums newX + j and newY + i of the occupied cells do not overflow (so
that each of them is again an int and the model computes what the source
computes), tryMove produces a result, and that result is true exactly when
every occupied mask cell (i, j) maps to a column x = newX + j with
0 <= x < BoardWidth and a row y = newY + i with y < BoardHeight such that y < 0
or board cell (y, x) is empty. In particular the result is false whenever an
occupied cell has x outside [0, BoardWidth) or y >= BoardHeight. -/
theorem tryMove_true_iff (s : TetrisWidget) (newPiece : Piece) (newX newY : Int)
    (hno : NoOverflow newPiece newX newY) :
    (∀ i j : Fin 4, newPiece.shape i j ≠ 0 →
      IsInt (newX + (j.val : Int)) ∧ IsInt (newY + (i.val : Int))) ∧
    ∃ (r : Bool) (s2 : TetrisWidget), tryMove s newPiece newX newY = .ok (r, s2) ∧
      (r = true ↔
        ∀ i j : Fin 4, newPiece.shape i j ≠ 0 →
          0 ≤ newX + (j.val : Int) ∧ newX + (j.val : Int) < (BoardWidth : Int) ∧
          newY + (i.val : Int) < (BoardHeight : Int) ∧
          (newY + (i.val : Int) < 0 ∨
            s.board.read (newY + (i.val : Int)) (newX + (j.val : Int)) = .ok 0)) ∧
      ((∃ i j : Fin 4, newPiece.shape i j ≠ 0 ∧
          (newX + (j.val : Int) < 0 ∨ (BoardWidth : Int) ≤ newX + (j.val : Int) ∨
            (BoardHeight : Int) ≤ newY + (i.val : Int))) → r = false) := by
  constructor
  · intro i j hs
    obtain ⟨⟨hx0, _⟩, ⟨hy0, _⟩, hsum⟩ := hno
    obtain ⟨hx1, hy1⟩ := hsum i j hs
    exact ⟨⟨by omega, hx1⟩, ⟨by omega, hy1⟩⟩
  by_cases h : PlacementOk s.board newPiece newX newY
  · refine ⟨true, _, tryMove_ok_true s newPiece newX newY h, ?_, ?_⟩
    · exact ⟨fun _ => h, fun _ => rfl⟩
    · rintro ⟨i, j, hs, hbad⟩
      have := h i j hs
      omega
  · refine ⟨false, _, tryMove_ok_false s newPiece newX newY h, ?_, ?_⟩
    · constructor
      · intro hc; cases hc
      · intro hc; exact absurd hc h
    · intro _; rfl

/-- Instances of C1 on the fresh game. For the upright L piece (mask rows 1 to
3 occupied) anchor row 2147483644 is the last one without overflow: the test
is false there. At the spawn anchor (3, 0) the test for the I piece is true. -/
theorem tryMove_true_iff_witness :
    (NoOverflow (spawned 1).rotatedLeft 3 2147483644 ∧
      ¬ NoOverflow (spawned 1).rotatedLeft 3 2147483645) ∧
    ((∀ i j : Fin 4, (spawned 1).rotatedLeft.shape i j ≠ 0 →
      IsInt ((3 : Int) + (j.val : Int)) ∧ IsInt ((2147483644 : Int) + (i.val : Int))) ∧
    ∃ (r : Bool) (s2 : TetrisWidget),
      tryMove freshWidget (spawned 1).rotatedLeft 3 2147483644 = .ok (r, s2) ∧
      (r = true ↔
        ∀ i j : Fin 4, (spawned 1).rotatedLeft.shape i j ≠ 0 →
          0 ≤ (3 : Int) + (j.val : Int) ∧ (3 : Int) + (j.val : Int) < (BoardWidth : Int) ∧
          (2147483644 : Int) + (i.val : Int) < (BoardHeight : Int) ∧
          ((2147483644 : Int) + (i.val : Int) < 0 ∨
            freshWidget.board.read ((2147483644 : Int) + (i.val : Int))
              ((3 : Int) + (j.val : Int)) = .ok 0)) ∧
      ((∃ i j : Fin 4, (spawned 1).rotatedLeft.shape i j ≠ 0 ∧
          ((3 : Int) + (j.val : Int) < 0 ∨ (BoardWidth : Int) ≤ (3 : Int) + (j.val : Int) ∨
            (BoardHeight : Int) ≤ (2147483644 : Int) + (i.val : Int))) → r = false)) ∧
    (tryMove freshWidget (spawned 1).rotatedLeft 3 2147483644).toOption.map (fun r => r.1) =
      some false ∧
    NoOverflow (spawned 0) 3 0 ∧
    (tryMove freshWidget (spawned 0) 3 0).toOption.map (fun r => r.1) = some true :=
  ⟨⟨by decide, by decide⟩,
    tryMove_true_iff freshWidget (spawned 1).rotatedLeft 3 2147483644 (by decide),
    by decide, by decide, by decide⟩

/-! ## Frame of the placement test -/

/-- C2. For every widget state, candidate piece and anchor, tryMove produces a
result. When the result is false the whole state (active piece, anchor, every
board cell, score) is exactly as before; when it is true the active piece and
anchor are the candidate and (newX, newY) and the board and the score are
unchanged. Hence the four keys that move or rotate (left, right, down = rotate
right, up = rotate left) never modify the board or the score. -/
theorem tryMove_frame (s : TetrisWidget) (newPiece : Piece) (newX newY : Int) :
    (∃ (r : Bool) (s2 : TetrisWidget), tryMove s newPiece newX newY = .ok (r, s2) ∧
      (r = false → s2 = s) ∧
      (r = true → s2.currentPiece = newPiece ∧ s2.currentX = newX ∧ s2.currentY = newY ∧
        s2.board = s.board ∧ s2.score = s.score)) ∧
    (∀ (fuel : Nat) (key : Key) (index : Fin 7),
      key = Key.left ∨ key = Key.right ∨ key = Key.down ∨ key = Key.up →
      ∃ s3 : TetrisWidget, keyPressEvent fuel s key index = .ok s3 ∧
        s3.board = s.board ∧ s3.score = s.score) := by
  have key : ∀ (p : Piece) (x y : Int),
      ∃ (r : Bool) (s2 : TetrisWidget), tryMove s p x y = .ok (r, s2) ∧
        (r = false → s2 = s) ∧
        (r = true → s2.currentPiece = p ∧ s2.currentX = x ∧ s2.currentY = y ∧
          s2.board = s.board ∧ s2.score = s.score) := by
    intro p x y
    by_cases h : PlacementOk s.board p x y
    · exact ⟨true, _, tryMove_ok_true s p x y h, (fun hc => Bool.noConfusion hc),
        fun _ => ⟨rfl, rfl, rfl, rfl, rfl⟩⟩
    · exact ⟨false, _, tryMove_ok_false s p x y h, (fun _ => rfl),
        (fun hc => Bool.noConfusion hc)⟩
  refine ⟨key newPiece newX newY, ?_⟩
  intro fuel k index hk
  have frame : ∀ (p : Piece) (x y : Int),
      ∃ s3 : TetrisWidget,
        (tryMove s p x y >>= fun r => (pure r.2 : Except Fault TetrisWidget)) = .ok s3 ∧
        s3.board = s.board ∧ s3.score = s.score := by
    intro p x y
    obtain ⟨r, s2, h2, hf, ht⟩ := key p x y
    refine ⟨s2, by simp [h2, bind, Except.bind, pure, Except.pure], ?_⟩
    cases r
    · rw [hf rfl]; exact ⟨rfl, rfl⟩
    · exact ⟨(ht rfl).2.2.2.1, (ht rfl).2.2.2.2⟩
  rcases hk with hk | hk | hk | hk <;> subst hk
  · exact frame s.currentPiece (s.currentX - 1) s.currentY
  · exact frame s.currentPiece (s.currentX + 1) s.currentY
  · exact frame s.currentPiece.rotatedRight s.currentX s.currentY
  · exact frame s.currentPiece.rotatedLeft s.currentX s.currentY

/-! ## Rotations -/

theorem Piece.ext_shape {p q : Piece} (hs : ∀ i j, p.shape i j = q.shape i j)
    (hc : p.color = q.color) : p = q := by
  cases p
  cases q
  simp only [Piece.mk.injEq]
  exact ⟨funext fun i => funext fun j => hs i j, hc⟩

theorem rotatedLeft_rotatedRight (p : Piece) : p.rotatedRight.rotatedLeft = p := by
  apply Piece.ext_shape
  · intro i j
    show p.shape ⟨3 - (3 - i.val), _⟩ j = p.shape i j
    congr 1
    apply Fin.ext
    show 3 - (3 - i.val) = i.val
    omega
  · rfl

theorem rotatedRight_rotatedLeft (p : Piece) : p.rotatedLeft.rotatedRight = p := by
  apply Piece.ext_shape
  · intro i j
    show p.shape i ⟨3 - (3 - j.val), _⟩ = p.shape i j
    congr 1
    apply Fin.ext
    show 3 - (3 - j.val) = j.val
    omega
  · rfl

theorem rotatedRight_twice_shape (p : Piece) (i j : Fin 4) :
    p.rotatedRight.rotatedRight.shape i j =
      p.shape ⟨3 - i.val, by omega⟩ ⟨3 - j.val, by omega⟩ := rfl

theorem rotatedLeft_twice_shape (p : Piece) (i j : Fin 4) :
    p.rotatedLeft.rotatedLeft.shape i j =
      p.shape ⟨3 - i.val, by omega⟩ ⟨3 - j.val, by omega⟩ := rfl

/-- C8. For every piece (any 4x4 mask and colour), four applications of
rotatedRight give back the same mask and colour, and so do four applications of
rotatedLeft. -/
theorem rotated_four_times (p : Piece) :
    p.rotatedRight.rotatedRight.rotatedRight.rotatedRight = p ∧
    p.rotatedLeft.rotatedLeft.rotatedLeft.rotatedLeft = p := by
  constructor
  · apply Piece.ext_shape
    · intro i j
      rw [rotatedRight_twice_shape, rotatedRight_twice_shape]
      congr 1 <;> apply Fin.ext <;> show 3 - (3 - _) = _ <;> omega
    · rfl
  · apply Piece.ext_shape
    · intro i j
      rw [rotatedLeft_twice_shape, rotatedLeft_twice_shape]
      congr 1 <;> apply Fin.ext <;> show 3 - (3 - _) = _ <;> omega
    · rfl

/-- C9. For every piece (any 4x4 mask and colour), rotatedRight followed by
rotatedLeft gives back the same mask and colour, and so does rotatedLeft
followed by rotatedRight: the two rotations are mutual inverses. -/
theorem rotated_inverse (p : Piece) :
    p.rotatedRight.rotatedLeft = p ∧ p.rotatedLeft.rotatedRight = p ∧
    (∀ i j : Fin 4, p.rotatedRight.rotatedLeft.shape i j = p.shape i j) ∧
    (∀ i j : Fin 4, p.rotatedLeft.rotatedRight.shape i j = p.shape i j) ∧
    p.rotatedRight.rotatedLeft.color = p.color ∧
    p.rotatedLeft.rotatedRight.color = p.color := by
  refine ⟨rotatedLeft_rotatedRight p, rotatedRight_rotatedLeft p, ?_, ?_, ?_, ?_⟩
  · intro i j; rw [rotatedLeft_rotatedRight]
  · intro i j; rw [rotatedRight_rotatedLeft]
  · rw [rotatedLeft_rotatedRight]
  · rw [rotatedRight_rotatedLeft]

/-! ## The lock step -/

theorem write_inRange (b : Board) (v : Int) {y x : Int} (hy0 : 0 ≤ y)
    (hy1 : y < (BoardHeight : Int)) (hx0 : 0 ≤ x) (hx1 : x < (BoardWidth : Int)) :
    ∃ (r : Fin BoardHeight) (c : Fin BoardWidth),
      (r.val : Int) = y ∧ (c.val : Int) = x ∧
      b.write y x v = .ok (fun r2 c2 => if r2 = r ∧ c2 = c then v else b r2 c2) := by
  obtain ⟨r, hr1, hr⟩ := rowIndex_inRange hy0 hy1
  obtain ⟨c, hc1, hc⟩ := colIndex_inRange hx0 hx1
  exact ⟨r, c, hr, hc, by simp [Board.write, hr1, hc1, bind, Except.bind, pure, Except.pure]⟩

theorem lockScan_spec (p : Piece) (x y : Int) (l : List (Fin 4 × Fin 4)) :
    ∀ b : Board,
      (∀ ij ∈ l, p.shape ij.1 ij.2 ≠ 0 →
        0 ≤ x + (ij.2.val : Int) ∧ x + (ij.2.val : Int) < (BoardWidth : Int) ∧
        y + (ij.1.val : Int) < (BoardHeight : Int)) →
      ∃ b2 : Board, lockScan p x y b l = .ok b2 ∧
        ∀ (r : Fin BoardHeight) (c : Fin BoardWidth),
          ((∃ ij ∈ l, p.shape ij.1 ij.2 ≠ 0 ∧ y + (ij.1.val : Int) = (r.val : Int) ∧
              x + (ij.2.val : Int) = (c.val : Int)) → b2 r c = p.color) ∧
          ((¬ ∃ ij ∈ l, p.shape ij.1 ij.2 ≠ 0 ∧ y + (ij.1.val : Int) = (r.val : Int) ∧
              x + (ij.2.val : Int) = (c.val : Int)) → b2 r c = b r c) := by
  induction l with
  | nil =>
    intro b _
    exact ⟨b, rfl, fun r c => ⟨by simp, fun _ => rfl⟩⟩
  | cons ij rest ih =>
    intro b hb
    obtain ⟨i, j⟩ := ij
    have hrest : ∀ ij ∈ rest, p.shape ij.1 ij.2 ≠ 0 →
        0 ≤ x + (ij.2.val : Int) ∧ x + (ij.2.val : Int) < (BoardWidth : Int) ∧
        y + (ij.1.val : Int) < (BoardHeight : Int) :=
      fun ij hmem hs => hb ij (List.mem_cons_of_mem _ hmem) hs
    unfold lockScan
    by_cases hocc : p.shape i j ≠ 0
    · rw [if_pos hocc]
      have hin := hb (i, j) (List.mem_cons_self _ _) hocc
      dsimp only at hin
      by_cases hy : y + (i.val : Int) ≥ 0
      · simp only [if_pos hy]
        obtain ⟨r0, c0, hr0, hc0, hw⟩ :=
          write_inRange b p.color hy hin.2.2 hin.1 hin.2.1
        obtain ⟨b2, hb2, hspec⟩ :=
          ih (fun r2 c2 => if r2 = r0 ∧ c2 = c0 then p.color else b r2 c2) hrest
        refine ⟨b2, by simp [hw, bind, Except.bind, hb2], ?_⟩
        intro r c
        obtain ⟨hcov, hnot⟩ := hspec r c
        constructor
        · rintro ⟨ij, hmem, hs, hry, hcx⟩
          by_cases hr : ∃ ij ∈ rest, p.shape ij.1 ij.2 ≠ 0 ∧
              y + (ij.1.val : Int) = (r.val : Int) ∧ x + (ij.2.val : Int) = (c.val : Int)
          · exact hcov hr
          · rw [hnot hr]
            rcases List.mem_cons.1 hmem with heq | hmem
            · subst heq
              dsimp only at hry hcx
              have h1 : r = r0 := Fin.ext (by omega)
              have h2 : c = c0 := Fin.ext (by omega)
              simp [h1, h2]
            · exact absurd ⟨ij, hmem, hs, hry, hcx⟩ hr
        · intro hn
          have hr : ¬ ∃ ij ∈ rest, p.shape ij.1 ij.2 ≠ 0 ∧
              y + (ij.1.val : Int) = (r.val : Int) ∧ x + (ij.2.val : Int) = (c.val : Int) := by
            rintro ⟨ij, hmem, h⟩
            exact hn ⟨ij, List.mem_cons_of_mem _ hmem, h⟩
          rw [hnot hr]
          have hne : ¬ (r = r0 ∧ c = c0) := by
            rintro ⟨h1, h2⟩
            subst h1 h2
            exact hn ⟨(i, j), List.mem_cons_self _ _, hocc, hr0.symm, hc0.symm⟩
          simp [hne]
      · simp only [if_neg hy]
        obtain ⟨b2, hb2, hspec⟩ := ih b hrest
        refine ⟨b2, hb2, ?_⟩
        intro r c
        obtain ⟨hcov, hnot⟩ := hspec r c
        have hiff : (∃ ij ∈ (i, j) :: rest, p.shape ij.1 ij.2 ≠ 0 ∧
              y + (ij.1.val : Int) = (r.val : Int) ∧ x + (ij.2.val : Int) = (c.val : Int)) ↔
            (∃ ij ∈ rest, p.shape ij.1 ij.2 ≠ 0 ∧
              y + (ij.1.val : Int) = (r.val : Int) ∧ x + (ij.2.val : Int) = (c.val : Int)) := by
          constructor
          · rintro ⟨ij, hmem, hs, hry, hcx⟩
            rcases List.mem_cons.1 hmem with heq | hmem
            · subst heq
              dsimp only at hry
              omega
            · exact ⟨ij, hmem, hs, hry, hcx⟩
          · rintro ⟨ij, hmem, h⟩
            exact ⟨ij, List.mem_cons_of_mem _ hmem, h⟩
        rw [hiff]
        exact ⟨hcov, hnot⟩
    · rw [if_neg hocc]
      obtain ⟨b2, hb2, hspec⟩ := ih b hrest
      refine ⟨b2, hb2, ?_⟩
      intro r c
      obtain ⟨hcov, hnot⟩ := hspec r c
      have hiff : (∃ ij ∈ (i, j) :: rest, p.shape ij.1 ij.2 ≠ 0 ∧
            y + (ij.1.val : Int) = (r.val : Int) ∧ x + (ij.2.val : Int) = (c.val : Int)) ↔
          (∃ ij ∈ rest, p.shape ij.1 ij.2 ≠ 0 ∧
            y + (ij.1.val : Int) = (r.val : Int) ∧ x + (ij.2.val : Int) = (c.val : Int)) := by
        constructor
        · rintro ⟨ij, hmem, hs, hry, hcx⟩
          rcases List.mem_cons.1 hmem with heq | hmem
          · subst heq
            exact absurd hs hocc
          · exact ⟨ij, hmem, hs, hry, hcx⟩
        · rintro ⟨ij, hmem, h⟩
          exact ⟨ij, List.mem_cons_of_mem _ hmem, h⟩
      rw [hiff]
      exact ⟨hcov, hnot⟩

/-- C7. For every board and every piece at anchor (x, y) all of whose occupied
mask cells map inside the board columns and above the bottom limit, the lock
loops of pieceDropped produce a board in which every cell (y + i, x + j) covered
by an occupied mask cell holds the colour of the piece and every other cell is
unchanged. Occupied mask cells with y + i < 0 cover no board cell and write
nothing: when all occupied cells are above the board, the board is unchanged. -/
theorem lock_frame (b : Board) (p : Piece) (x y : Int)
    (hin : ∀ i j : Fin 4, p.shape i j ≠ 0 →
      0 ≤ x + (j.val : Int) ∧ x + (j.val : Int) < (BoardWidth : Int) ∧
      y + (i.val : Int) < (BoardHeight : Int)) :
    ∃ b2 : Board, lockScan p x y b cells4 = .ok b2 ∧
      (∀ (r : Fin BoardHeight) (c : Fin BoardWidth),
        (∃ i j : Fin 4, p.shape i j ≠ 0 ∧ y + (i.val : Int) = (r.val : Int) ∧
          x + (j.val : Int) = (c.val : Int)) → b2 r c = p.color) ∧
      (∀ (r : Fin BoardHeight) (c : Fin BoardWidth),
        (¬ ∃ i j : Fin 4, p.shape i j ≠ 0 ∧ y + (i.val : Int) = (r.val : Int) ∧
          x + (j.val : Int) = (c.val : Int)) → b2 r c = b r c) ∧
      ((∀ i j : Fin 4, p.shape i j ≠ 0 → y + (i.val : Int) < 0) → b2 = b) := by
  obtain ⟨b2, hb2, hspec⟩ :=
    lockScan_spec p x y cells4 b (fun ij _ hs => hin ij.1 ij.2 hs)
  have hunch : ∀ (r : Fin BoardHeight) (c : Fin BoardWidth),
      (¬ ∃ i j : Fin 4, p.shape i j ≠ 0 ∧ y + (i.val : Int) = (r.val : Int) ∧
        x + (j.val : Int) = (c.val : Int)) → b2 r c = b r c := by
    intro r c hn
    apply (hspec r c).2
    rintro ⟨ij, _, h⟩
    exact hn ⟨ij.1, ij.2, h⟩
  refine ⟨b2, hb2, ?_, hunch, ?_⟩
  · rintro r c ⟨i, j, h⟩
    exact (hspec r c).1 ⟨(i, j), mem_cells4 i j, h⟩
  · intro habove
    funext r c
    apply hunch
    rintro ⟨i, j, hs, hry, _⟩
    have := habove i j hs
    omega

/-- Instance of C7 on the empty board: the L piece at anchor (3, -1) has its
first mask row above the board; only cell (0, 3) is written. -/
theorem lock_frame_witness :
    (∀ i j : Fin 4, (spawned 1).shape i j ≠ 0 →
      0 ≤ (3 : Int) + (j.val : Int) ∧ (3 : Int) + (j.val : Int) < (BoardWidth : Int) ∧
      (-1 : Int) + (i.val : Int) < (BoardHeight : Int)) ∧
    ∃ b2 : Board, lockScan (spawned 1) 3 (-1) emptyBoard cells4 = .ok b2 ∧
      (∀ (r : Fin BoardHeight) (c : Fin BoardWidth),
        (∃ i j : Fin 4, (spawned 1).shape i j ≠ 0 ∧ (-1 : Int) + (i.val : Int) = (r.val : Int) ∧
          (3 : Int) + (j.val : Int) = (c.val : Int)) → b2 r c = (spawned 1).color) ∧
      (∀ (r : Fin BoardHeight) (c : Fin BoardWidth),
        (¬ ∃ i j : Fin 4, (spawned 1).shape i j ≠ 0 ∧
          (-1 : Int) + (i.val : Int) = (r.val : Int) ∧
          (3 : Int) + (j.val : Int) = (c.val : Int)) → b2 r c = emptyBoard r c) ∧
      ((∀ i j : Fin 4, (spawned 1).shape i j ≠ 0 → (-1 : Int) + (i.val : Int) < 0) →
        b2 = emptyBoard) :=
  ⟨by decide, lock_frame emptyBoard (spawned 1) 3 (-1) (by decide)⟩

/-! ## The full-line scan -/

theorem rowFull_iff (row : Row) : rowFull row = true ↔ IsFull row := by
  simp [rowFull, IsFull, List.all_eq_true]

theorem rowFull_false_iff (row : Row) : rowFull row = false ↔ ¬ IsFull row := by
  rw [← rowFull_iff]
  cases rowFull row <;> simp

theorem rowAt_lt (b : Board) {n : Nat} (h : n < BoardHeight) : rowAt b n = b ⟨n, h⟩ := by
  simp [rowAt, h]

theorem rowAt_val (b : Board) (r : Fin BoardHeight) : rowAt b r.val = b r := by
  simp [rowAt, r.isLt]

theorem rowIndex_nat {n : Nat} (h : n < BoardHeight) : rowIndex (n : Int) = .ok ⟨n, h⟩ :=
  rowIndex_ok ⟨n, h⟩

theorem readRow_nat (b : Board) {n : Nat} (h : n < BoardHeight) :
    b.readRow (n : Int) = .ok (rowAt b n) := by
  simp [Board.readRow, rowIndex_nat h, rowAt_lt b h, bind, Except.bind, pure, Except.pure]

theorem writeRow_nat (b : Board) {n : Nat} (h : n < BoardHeight) (row : Row) :
    b.writeRow (n : Int) row = .ok (fun r2 => if r2 = ⟨n, h⟩ then row else b r2) := by
  simp [Board.writeRow, rowIndex_nat h, bind, Except.bind, pure, Except.pure]

theorem shiftRows_spec : ∀ (k : Nat) (b : Board), k < BoardHeight →
    shiftRows b k = .ok (shifted b k) := by
  intro k
  induction k with
  | zero =>
    intro b _
    have : shifted b 0 = b := by
      funext r
      have : ¬ (0 < r.val ∧ r.val ≤ 0) := by omega
      unfold shifted
      rw [if_neg this]
    rw [this]
    rfl
  | succ k ih =>
    intro b hk
    have hk2 : k < BoardHeight := by omega
    have hsub : (((k + 1 : Nat) : Int) - 1) = (k : Int) := by push_cast; ring
    unfold shiftRows
    rw [hsub, readRow_nat b hk2]
    simp only [bind, Except.bind]
    rw [writeRow_nat b hk]
    dsimp only
    rw [ih _ hk2]
    congr 1
    funext r
    unfold shifted
    by_cases h1 : 0 < r.val ∧ r.val ≤ k
    · have h2 : 0 < r.val ∧ r.val ≤ k + 1 := by omega
      have h3 : r.val - 1 < BoardHeight := by have := r.isLt; omega
      have h4 : (⟨r.val - 1, h3⟩ : Fin BoardHeight) ≠ ⟨k + 1, hk⟩ := by
        intro h
        have := congrArg Fin.val h
        simp at this
        omega
      rw [if_pos h1, if_pos h2, rowAt_lt _ h3, rowAt_lt _ h3, if_neg h4]
    · by_cases h5 : r.val = k + 1
      · have h2 : 0 < r.val ∧ r.val ≤ k + 1 := by omega
        have h6 : r = ⟨k + 1, hk⟩ := Fin.ext h5
        rw [if_neg h1, if_pos h2]
        dsimp only
        rw [if_pos h6, h5]
        rfl
      · have h2 : ¬ (0 < r.val ∧ r.val ≤ k + 1) := by omega
        have h6 : r ≠ ⟨k + 1, hk⟩ := fun h => h5 (congrArg Fin.val h)
        rw [if_neg h1, if_neg h2]
        dsimp only
        rw [if_neg h6]

theorem rowAt_shifted_zero (b : Board) (k : Nat) : rowAt (shifted b k) 0 = rowAt b 0 := by
  have h : (0 : Nat) < BoardHeight := by decide
  rw [rowAt_lt _ h, rowAt_lt _ h]
  unfold shifted
  rw [if_neg (by simp)]

theorem rowAt_shifted_succ (b : Board) {k i : Nat} (hi : i < k) (hk : k < BoardHeight) :
    rowAt (shifted b k) (i + 1) = rowAt b i := by
  have h : i + 1 < BoardHeight := by omega
  rw [rowAt_lt _ h]
  have h2 : 0 < i + 1 ∧ i + 1 ≤ k := by omega
  unfold shifted
  rw [if_pos h2]
  rfl

theorem shifted_above (b : Board) (k : Nat) (r : Fin BoardHeight) (h : k < r.val) :
    shifted b k r = b r := by
  have h2 : ¬ (0 < r.val ∧ r.val ≤ k) := by omega
  unfold shifted
  rw [if_neg h2]

theorem fullBelow_succ (b : Board) (k : Nat) :
    fullBelow b (k + 1) = fullBelow b k + (if rowFull (rowAt b k) then 1 else 0) := by
  simp only [fullBelow, Finset.sum_range_succ]

theorem fullBelow_le (b : Board) (k : Nat) : fullBelow b k ≤ k := by
  induction k with
  | zero => simp [fullBelow]
  | succ k ih =>
    rw [fullBelow_succ]
    split <;> omega

theorem fullBelow_shifted (b : Board) {k : Nat} (hk : k < BoardHeight) :
    fullBelow (shifted b k) (k + 1) =
      fullBelow b k + (if rowFull (rowAt b 0) then 1 else 0) := by
  unfold fullBelow
  rw [Finset.sum_range_succ', rowAt_shifted_zero]
  congr 1
  apply Finset.sum_congr rfl
  intro i hi
  rw [rowAt_shifted_succ b (Finset.mem_range.1 hi) hk]

theorem fullBelow_eq_fullRowCount (b : Board) : fullBelow b BoardHeight = fullRowCount b := by
  unfold fullBelow fullRowCount
  rw [← Fin.sum_univ_eq_sum_range (fun i => if rowFull (rowAt b i) then 1 else 0) BoardHeight,
    Finset.card_filter]
  apply Finset.sum_congr rfl
  intro r _
  rw [rowAt_val]
  by_cases h : IsFull (b r)
  · rw [if_pos h, if_pos ((rowFull_iff _).2 h)]
  · rw [if_neg h, if_neg (fun hc => h ((rowFull_iff _).1 hc))]

/-- The scan from row `k - 1` on a board whose top row is not full: either the
budget is too small, or it ends having counted the full rows among
`0 .. k - 1`, with no full row left there, the rows from `k` on untouched and
row 0 as it was. -/
theorem removeFullLinesLoop_cases : ∀ (fuel : Nat) (b : Board) (k : Nat) (n : Int),
    k ≤ BoardHeight → rowFull (rowAt b 0) = false →
    (removeFullLinesLoop fuel b ((k : Int) - 1) n = .error .outOfFuel ∧
        fuel ≤ k + fullBelow b k) ∨
    (∃ b2 : Board,
      removeFullLinesLoop fuel b ((k : Int) - 1) n = .ok (b2, n + (fullBelow b k : Int)) ∧
      (∀ i, i < k → rowFull (rowAt b2 i) = false) ∧
      (∀ r : Fin BoardHeight, k ≤ r.val → b2 r = b r) ∧
      rowAt b2 0 = rowAt b 0) := by
  intro fuel
  induction fuel with
  | zero =>
    intro b k n _ _
    exact Or.inl ⟨rfl, by omega⟩
  | succ fuel ih =>
    intro b k n hk h0
    cases k with
    | zero =>
      right
      refine ⟨b, ?_, ?_, ?_, rfl⟩
      · unfold removeFullLinesLoop
        have hneg : ¬ (((0 : Nat) : Int) - 1 ≥ 0) := by omega
        rw [if_neg hneg]
        simp [fullBelow, pure, Except.pure]
      · intro i hi
        omega
      · intro r _
        rfl
    | succ j =>
      have hj : j < BoardHeight := by omega
      have hy : (((j + 1 : Nat) : Int) - 1) = (j : Int) := by push_cast; ring
      have hback : ((j : Int) + 1) - 1 = (((j + 1 : Nat) : Int) - 1) := by push_cast; ring
      rw [hy]
      unfold removeFullLinesLoop
      have hge : (j : Int) ≥ 0 := by omega
      rw [if_pos hge, readRow_nat b hj]
      simp only [bind, Except.bind]
      by_cases hfull : rowFull (rowAt b j) = true
      · rw [if_pos hfull, Int.toNat_ofNat, shiftRows_spec j b hj]
        dsimp only
        rw [hback]
        have hcount : fullBelow (shifted b j) (j + 1) = fullBelow b j := by
          rw [fullBelow_shifted b hj, h0]
          simp
        have hsucc : fullBelow b (j + 1) = fullBelow b j + 1 := by
          rw [fullBelow_succ, hfull]
          simp
        have h0s : rowFull (rowAt (shifted b j) 0) = false := by
          rw [rowAt_shifted_zero]
          exact h0
        rcases ih (shifted b j) (j + 1) (n + 1) hk h0s with ⟨herr, hle⟩ | ⟨b2, hok, hnf, hab, hz⟩
        · left
          exact ⟨herr, by omega⟩
        · right
          refine ⟨b2, ?_, hnf, ?_, ?_⟩
          · rw [hok, hcount, hsucc]
            congr 2
            push_cast
            ring
          · intro r hr
            rw [hab r hr, shifted_above b j r (by omega)]
          · rw [hz, rowAt_shifted_zero]
      · have hff : rowFull (rowAt b j) = false := by
          cases hc : rowFull (rowAt b j)
          · rfl
          · exact absurd hc hfull
        rw [if_neg hfull]
        have hsucc : fullBelow b (j + 1) = fullBelow b j := by
          rw [fullBelow_succ, hff]
          simp
        rcases ih b j n (by omega) h0 with ⟨herr, hle⟩ | ⟨b2, hok, hnf, hab, hz⟩
        · left
          exact ⟨herr, by omega⟩
        · right
          refine ⟨b2, ?_, ?_, ?_, hz⟩
          · rw [hok, hsucc]
          · intro i hi
            by_cases hij : i < j
            · exact hnf i hij
            · have hi2 : i = j := by omega
              subst hi2
              rw [rowAt_lt _ hj, hab ⟨i, hj⟩ (le_refl _), ← rowAt_lt b hj]
              exact hff
          · intro r hr
            exact hab r (by omega)

/-- A full top row is never cleared: the scan started at any row of such a
board uses up every budget. -/
theorem removeFullLinesLoop_topFull : ∀ (fuel : Nat) (b : Board) (k : Nat) (n : Int),
    k < BoardHeight → rowFull (rowAt b 0) = true →
    removeFullLinesLoop fuel b (k : Int) n = .error .outOfFuel := by
  intro fuel
  induction fuel with
  | zero =>
    intro b k n _ _
    rfl
  | succ fuel ih =>
    intro b k n hk h0
    unfold removeFullLinesLoop
    have hge : (k : Int) ≥ 0 := by omega
    rw [if_pos hge, readRow_nat b hk]
    simp only [bind, Except.bind]
    by_cases hfull : rowFull (rowAt b k) = true
    · rw [if_pos hfull, Int.toNat_ofNat, shiftRows_spec k b hk]
      dsimp only
      have hback : ((k : Int) + 1) - 1 = (k : Int) := by ring
      rw [hback]
      apply ih _ k _ hk
      rw [rowAt_shifted_zero]
      exact h0
    · rw [if_neg hfull]
      cases k with
      | zero => exact absurd h0 hfull
      | succ j =>
        have hy : (((j + 1 : Nat) : Int) - 1) = (j : Int) := by push_cast; ring
        rw [hy]
        exact ih b j n (by omega) h0

theorem bottom_index : ((BoardHeight : Nat) : Int) - 1 = ((BoardHeight - 1 : Nat) : Int) := by
  decide

/-- The scan of a whole board whose top row is not full, with a budget above
twice the height. -/
theorem removeFullLinesLoop_total (b : Board) (fuel : Nat) (h0 : ¬ IsFull (b topRow))
    (hfuel : 2 * BoardHeight < fuel) :
    ∃ b2 : Board,
      removeFullLinesLoop fuel b ((BoardHeight : Int) - 1) 0 = .ok (b2, (fullRowCount b : Int)) ∧
      (∀ r : Fin BoardHeight, ¬ IsFull (b2 r)) ∧ b2 topRow = b topRow := by
  have h0f : rowFull (rowAt b 0) = false := by
    rw [rowFull_false_iff]
    exact h0
  rcases removeFullLinesLoop_cases fuel b BoardHeight 0 (le_refl _) h0f with
    ⟨_, hle⟩ | ⟨b2, hok, hnf, _, hz⟩
  · have := fullBelow_le b BoardHeight
    omega
  · refine ⟨b2, ?_, ?_, ?_⟩
    · rw [hok, fullBelow_eq_fullRowCount]
      simp
    · intro r
      rw [← rowFull_false_iff, ← rowAt_val b2 r]
      exact hnf r.val r.isLt
    · exact hz

/-- A scan that ends has counted the full rows of the board it started from,
and that board had a top row that was not full. -/
theorem removeFullLinesLoop_ok (b b2 : Board) (fuel : Nat) (n : Int)
    (h : removeFullLinesLoop fuel b ((BoardHeight : Int) - 1) 0 = .ok (b2, n)) :
    ¬ IsFull (b topRow) ∧ n = (fullRowCount b : Int) ∧
      (∀ r : Fin BoardHeight, ¬ IsFull (b2 r)) := by
  have h0 : ¬ IsFull (b topRow) := by
    intro hfull
    have h0t : rowFull (rowAt b 0) = true := (rowFull_iff _).2 hfull
    have := removeFullLinesLoop_topFull fuel b (BoardHeight - 1) 0 (by decide) h0t
    rw [← bottom_index, h] at this
    cases this
  have h0f : rowFull (rowAt b 0) = false := by
    rw [rowFull_false_iff]
    exact h0
  refine ⟨h0, ?_⟩
  rcases removeFullLinesLoop_cases fuel b BoardHeight 0 (le_refl _) h0f with
    ⟨herr, _⟩ | ⟨b3, hok, hnf, _, _⟩
  · rw [h] at herr
    cases herr
  · rw [h] at hok
    injection hok with hok
    injection hok with hb hn
    subst hb
    refine ⟨?_, ?_⟩
    · rw [hn, fullBelow_eq_fullRowCount]
      simp
    · intro r
      rw [← rowFull_false_iff, ← rowAt_val b2 r]
      exact hnf r.val r.isLt

/-- C3. For every board whose top row (row 0) is not full, the scan of
removeFullLines, given a budget above twice the board height, ends and has
cleared exactly as many rows as were full before the call (each of several
consecutive full rows is counted, the same row index being examined again
after a shift), and afterwards no row of the board is full. -/
theorem removeFullLines_clears_every_full_row (s : TetrisWidget) (fuel : Nat)
    (h0 : ¬ IsFull (s.board topRow)) (hfuel : 2 * BoardHeight < fuel) :
    ∃ (b2 : Board) (s2 : TetrisWidget),
      removeFullLinesLoop fuel s.board ((BoardHeight : Int) - 1) 0 =
        .ok (b2, (fullRowCount s.board : Int)) ∧
      removeFullLines fuel s = .ok s2 ∧ s2.board = b2 ∧
      (∀ r : Fin BoardHeight, ¬ IsFull (b2 r)) := by
  obtain ⟨b2, hok, hnf, _⟩ := removeFullLinesLoop_total s.board fuel h0 hfuel
  by_cases hn : (fullRowCount s.board : Int) > 0
  · exact ⟨b2, _, hok, by simp only [removeFullLines, hok, bind, Except.bind, if_pos hn]; rfl,
      rfl, hnf⟩
  · exact ⟨b2, _, hok, by simp only [removeFullLines, hok, bind, Except.bind, if_neg hn]; rfl,
      rfl, hnf⟩

/-- Instance of C3, the scenario of the specification: on the otherwise empty
10x20 board with row 19 completely filled the scan clears 1 row and row 19 is
empty afterwards. With the two consecutive rows 18 and 19 filled it clears 2
rows and leaves the board empty. -/
theorem removeFullLines_clears_every_full_row_witness :
    (¬ IsFull ((widgetOn bottomFullBoard).board topRow) ∧ 2 * BoardHeight < 41) ∧
    (∃ (b2 : Board) (s2 : TetrisWidget),
      removeFullLinesLoop 41 (widgetOn bottomFullBoard).board ((BoardHeight : Int) - 1) 0 =
        .ok (b2, (fullRowCount (widgetOn bottomFullBoard).board : Int)) ∧
      removeFullLines 41 (widgetOn bottomFullBoard) = .ok s2 ∧ s2.board = b2 ∧
      (∀ r : Fin BoardHeight, ¬ IsFull (b2 r))) ∧
    fullRowCount bottomFullBoard = 1 ∧
    (removeFullLinesLoop 41 bottomFullBoard ((BoardHeight : Int) - 1) 0).toOption.map
        (fun r => (r.2, decide (IsEmptyRow (r.1 ⟨19, by decide⟩)))) = some (1, true) ∧
    (removeFullLinesLoop 41 twoFullBoard ((BoardHeight : Int) - 1) 0).toOption.map
        (fun r => (r.2, decide (∀ y : Fin BoardHeight, IsEmptyRow (r.1 y)))) = some (2, true) :=
  ⟨⟨by decide, by decide⟩,
    removeFullLines_clears_every_full_row (widgetOn bottomFullBoard) 41 (by decide) (by decide),
    by decide, by decide, by decide⟩

theorem toOption_map_true {α : Type} {x : Except Fault α} {f : α → Bool}
    (h : x.toOption.map f = some true) : ∃ a, x = .ok a ∧ f a = true := by
  cases x with
  | error e => cases h
  | ok a =>
    refine ⟨a, rfl, ?_⟩
    simpa [Except.toOption] using h

theorem run_reachable (fuel : Nat) : ∀ (cmds : List (Command × Fin 7)) (s s2 : TetrisWidget),
    Reachable s → run fuel s cmds = .ok s2 → Reachable s2 := by
  intro cmds
  induction cmds with
  | nil =>
    intro s s2 hr h
    injection h with h
    subst h
    exact hr
  | cons ci rest ih =>
    intro s s2 hr h
    obtain ⟨c, index⟩ := ci
    unfold run at h
    cases hstep : step fuel s c index with
    | error e =>
      rw [hstep] at h
      cases h
    | ok s1 =>
      rw [hstep] at h
      exact ih s1 s2 (Reachable.next fuel s s1 c index hr hstep) h

/-- A running widget whose piece cannot descend and whose lock completes row 0
never gets through its next timer tick. -/
theorem landsOnFullTopRow_spec (s : TetrisWidget) (h : landsOnFullTopRow s = true) :
    s.timerActive = true ∧ Event.gameOver ∉ s.events ∧
    ∀ (fuel : Nat) (index : Fin 7), step fuel s Command.tick index = .error .outOfFuel := by
  unfold landsOnFullTopRow at h
  simp only [Bool.and_eq_true, Bool.not_eq_true'] at h
  obtain ⟨⟨⟨ht, hg⟩, hmove⟩, hlock⟩ := h
  refine ⟨ht, ?_, ?_⟩
  · intro hmem
    have hc : s.events.contains Event.gameOver = true := List.elem_eq_true_of_mem hmem
    rw [hg] at hc
    cases hc
  · intro fuel index
    cases hscan : tryMoveScan s.board s.currentPiece s.currentX (s.currentY + 1) cells4 with
    | error e =>
      rw [hscan] at hmove
      cases hmove
    | ok r =>
      cases r with
      | true =>
        rw [hscan] at hmove
        cases hmove
      | false =>
        cases hl : lockScan s.currentPiece s.currentX s.currentY s.board cells4 with
        | error e =>
          rw [hl] at hlock
          cases hlock
        | ok b1 =>
          rw [hl] at hlock
          have hloop : removeFullLinesLoop fuel b1 ((BoardHeight : Int) - 1) 0 =
              .error .outOfFuel := by
            rw [bottom_index]
            exact removeFullLinesLoop_topFull fuel b1 (BoardHeight - 1) 0 (by decide) hlock
          have htry : tryMove s s.currentPiece s.currentX (s.currentY + 1) = .ok (false, s) := by
            simp only [tryMove, hscan, bind, Except.bind]
            rfl
          have hrem : removeFullLines fuel { s with board := b1 } = .error .outOfFuel := by
            simp only [removeFullLines, hloop, bind, Except.bind]
          have hdrop : pieceDropped fuel s index = .error .outOfFuel := by
            simp only [pieceDropped, hl, hrem, bind, Except.bind]
          simp only [step, ht, if_true, timerEvent, oneLineDown, htry, bind, Except.bind,
            Bool.not_false, hdrop]

set_option maxRecDepth 1000000 in
theorem towerPlan_check :
    (run 41 freshWidget towerPlan).toOption.map clearsUnderTower = some true := by
  decide

set_option maxRecDepth 1000000 in
theorem fullTopRowPlan_check :
    (run 41 freshWidget fullTopRowPlan).toOption.map landsOnFullTopRow = some true := by
  decide

/-- C4, evaluated. On the board whose column 0 is occupied in every row and
whose row 19 is full, one row is cleared, yet row 0 of the result is not empty
(its column 0 still holds 7) and row 1 holds a copy of it. The same happens in
play: after the commands of `towerPlan` from a fresh game, the space key lands a
piece, one row is cleared (the score grows by 100), and the cell in row 0,
column 0 is occupied before and after, as is the cell below it. -/
theorem removeFullLines_keeps_top_row :
    (∃ b2 : Board,
      removeFullLinesLoop 41 towerBoard ((BoardHeight : Int) - 1) 0 = .ok (b2, 1) ∧
      b2 topRow = towerBoard topRow ∧ b2 topRow ⟨0, by decide⟩ = 7 ∧
      ¬ IsEmptyRow (b2 topRow) ∧ b2 ⟨1, by decide⟩ = towerBoard topRow) ∧
    (∃ s s2 : TetrisWidget,
      run 41 freshWidget towerPlan = .ok s ∧ Reachable s ∧
      step 41 s (Command.key Key.space) 0 = .ok s2 ∧
      Event.gameOver ∉ s2.events ∧ s2.score = s.score + 100 ∧
      s.board topRow ⟨0, by decide⟩ ≠ 0 ∧ s2.board topRow ⟨0, by decide⟩ ≠ 0 ∧
      ¬ IsEmptyRow (s2.board topRow) ∧ s2.board ⟨1, by decide⟩ ⟨0, by decide⟩ ≠ 0) := by
  constructor
  · obtain ⟨b2, hok, _, htop⟩ :=
      removeFullLinesLoop_total towerBoard 41 (by decide) (by decide)
    have hcount : fullRowCount towerBoard = 1 := by decide
    rw [hcount] at hok
    have hrow1 : (removeFullLinesLoop 41 towerBoard ((BoardHeight : Int) - 1) 0).toOption.map
        (fun r => decide (r.1 ⟨1, by decide⟩ = towerBoard topRow)) = some true := by decide
    rw [hok] at hrow1
    refine ⟨b2, hok, htop, by rw [htop]; decide, by rw [htop]; decide, ?_⟩
    simpa [Except.toOption] using hrow1
  · obtain ⟨s, hs, hcheck⟩ := toOption_map_true towerPlan_check
    unfold clearsUnderTower at hcheck
    cases hstep : step 41 s (Command.key Key.space) 0 with
    | error e =>
      rw [hstep] at hcheck
      cases hcheck
    | ok s2 =>
      rw [hstep] at hcheck
      simp only [Bool.and_eq_true, Bool.not_eq_true', decide_eq_true_eq] at hcheck
      obtain ⟨⟨⟨⟨h1, h2⟩, h3⟩, h4⟩, h5⟩ := hcheck
      refine ⟨s, s2, hs, run_reachable 41 _ _ _ (Reachable.fresh 0 freshWidget (by rfl)) hs,
        hstep, ?_, h2, h3, h4, fun hc => h4 (hc _), h5⟩
      intro hmem
      have hc : s2.events.contains Event.gameOver = true := List.elem_eq_true_of_mem hmem
      rw [h1] at hc
      cases hc

/-- C5, evaluated. On every board whose top row 0 is full the scan of
removeFullLines uses up every budget of iterations: it does not end. So it is
on the board whose only occupied row is row 0. Such a board arises in play:
after the commands of `fullTopRowPlan` from a fresh game no spawn has failed,
and the next timer tick locks an I piece that completes row 0 and never
returns. -/
theorem removeFullLines_never_ends_on_full_top_row :
    (∀ (b : Board) (fuel : Nat), IsFull (b topRow) →
      removeFullLinesLoop fuel b ((BoardHeight : Int) - 1) 0 = .error .outOfFuel) ∧
    (∀ fuel : Nat,
      removeFullLinesLoop fuel topFullBoard ((BoardHeight : Int) - 1) 0 = .error .outOfFuel ∧
      removeFullLines fuel (widgetOn topFullBoard) = .error .outOfFuel) ∧
    (∃ s : TetrisWidget,
      run 41 freshWidget fullTopRowPlan = .ok s ∧ Reachable s ∧
      Event.gameOver ∉ s.events ∧ s.timerActive = true ∧
      ∀ (fuel : Nat) (index : Fin 7),
        step fuel s Command.tick index = .error .outOfFuel) := by
  have hgen : ∀ (b : Board) (fuel : Nat), IsFull (b topRow) →
      removeFullLinesLoop fuel b ((BoardHeight : Int) - 1) 0 = .error .outOfFuel := by
    intro b fuel hfull
    rw [bottom_index]
    exact removeFullLinesLoop_topFull fuel b (BoardHeight - 1) 0 (by decide)
      ((rowFull_iff _).2 hfull)
  refine ⟨hgen, ?_, ?_⟩
  · intro fuel
    have h := hgen topFullBoard fuel (by decide)
    refine ⟨h, ?_⟩
    have h2 : removeFullLinesLoop fuel (widgetOn topFullBoard).board
        ((BoardHeight : Int) - 1) 0 = .error .outOfFuel := h
    simp only [removeFullLines, h2, bind, Except.bind]
  · obtain ⟨s, hs, hcheck⟩ := toOption_map_true fullTopRowPlan_check
    obtain ⟨ht, hg, hstep⟩ := landsOnFullTopRow_spec s hcheck
    exact ⟨s, hs, run_reachable 41 _ _ _ (Reachable.fresh 0 freshWidget (by rfl)) hs, hg, ht,
      hstep⟩

/-! ## Landing and spawning -/

theorem bind_eq_ok {α β : Type} {x : Except Fault α} {f : α → Except Fault β} {y : β}
    (h : (x >>= f) = .ok y) : ∃ a, x = .ok a ∧ f a = .ok y := by
  cases x with
  | error e => cases h
  | ok a => exact ⟨a, rfl, h⟩

/-- The two outcomes of a spawn. -/
theorem newPiece_cases (s : TetrisWidget) (index : Fin 7) :
    (PlacementOk s.board (spawned index) ((BoardWidth : Int) / 2 - 2) 0 ∧
      newPiece s index = .ok
        { board := s.board, currentPiece := spawned index,
          currentX := (BoardWidth : Int) / 2 - 2, currentY := 0, score := s.score,
          timerActive := s.timerActive, events := s.events ++ [Event.update] }) ∨
    (¬ PlacementOk s.board (spawned index) ((BoardWidth : Int) / 2 - 2) 0 ∧
      newPiece s index = .ok
        { board := s.board, currentPiece := spawned index,
          currentX := (BoardWidth : Int) / 2 - 2, currentY := 0, score := s.score,
          timerActive := false, events := s.events ++ [Event.gameOver] }) := by
  by_cases h : PlacementOk s.board (spawned index) ((BoardWidth : Int) / 2 - 2) 0
  · left
    refine ⟨h, ?_⟩
    have ht := tryMove_ok_true
      ({ board := s.board, currentPiece := { shape := shapes index, color := colors index },
         currentX := (BoardWidth : Int) / 2 - 2, currentY := 0, score := s.score,
         timerActive := s.timerActive, events := s.events } : TetrisWidget)
      { shape := shapes index, color := colors index } ((BoardWidth : Int) / 2 - 2) 0 h
    unfold newPiece
    dsimp only
    rw [ht]
    rfl
  · right
    refine ⟨h, ?_⟩
    have ht := tryMove_ok_false
      ({ board := s.board, currentPiece := { shape := shapes index, color := colors index },
         currentX := (BoardWidth : Int) / 2 - 2, currentY := 0, score := s.score,
         timerActive := s.timerActive, events := s.events } : TetrisWidget)
      { shape := shapes index, color := colors index } ((BoardWidth : Int) / 2 - 2) 0 h
    unfold newPiece
    dsimp only
    rw [ht]
    rfl

/-- The two outcomes of a call of removeFullLines that ends. -/
theorem removeFullLines_cases (fuel : Nat) (s s1 : TetrisWidget)
    (h : removeFullLines fuel s = .ok s1) :
    ∃ (b2 : Board) (n : Int),
      removeFullLinesLoop fuel s.board ((BoardHeight : Int) - 1) 0 = .ok (b2, n) ∧
      ((0 < n ∧ s1 = { s with board := b2, score := s.score + 100 * n,
                              events := s.events ++
                                [Event.scoreChanged (s.score + 100 * n), Event.update] }) ∨
       (¬ 0 < n ∧ s1 = { s with board := b2 })) := by
  unfold removeFullLines at h
  obtain ⟨⟨b2, n⟩, hloop, hrest⟩ := bind_eq_ok h
  refine ⟨b2, n, hloop, ?_⟩
  dsimp only at hrest
  by_cases hn : n > 0
  · rw [if_pos hn] at hrest
    injection hrest with hrest
    exact Or.inl ⟨hn, hrest.symm⟩
  · rw [if_neg hn] at hrest
    injection hrest with hrest
    exact Or.inr ⟨hn, hrest.symm⟩

/-- What a landing that runs to its end has done. -/
theorem pieceDropped_cases (fuel : Nat) (s s2 : TetrisWidget) (index : Fin 7)
    (h : pieceDropped fuel s index = .ok s2) :
    ∃ (b1 b2 : Board) (n : Nat) (tail : List Event),
      lockScan s.currentPiece s.currentX s.currentY s.board cells4 = .ok b1 ∧
      removeFullLinesLoop fuel b1 ((BoardHeight : Int) - 1) 0 = .ok (b2, (n : Int)) ∧
      n = fullRowCount b1 ∧
      s2.board = b2 ∧
      s2.score = s.score + 100 * (n : Int) ∧
      s2.events = s.events ++ tail ∧
      tail.filter Event.isScoreChanged =
        (if 0 < n then [Event.scoreChanged s2.score] else []) ∧
      (Event.gameOver ∉ tail →
        PlacementOk s2.board s2.currentPiece s2.currentX s2.currentY) := by
  unfold pieceDropped at h
  obtain ⟨b1, hlock, h⟩ := bind_eq_ok h
  obtain ⟨s1, hrem, hnew⟩ := bind_eq_ok h
  obtain ⟨b2, n, hloop, hs1⟩ := removeFullLines_cases fuel _ s1 hrem
  dsimp only at hloop
  obtain ⟨_, hn, _⟩ := removeFullLinesLoop_ok b1 b2 fuel n hloop
  subst hn
  refine ⟨b1, b2, fullRowCount b1, ?_⟩
  rcases hs1 with ⟨hpos, hs1⟩ | ⟨hzero, hs1⟩
  · have hpos2 : 0 < fullRowCount b1 := by exact_mod_cast hpos
    subst hs1
    rcases newPiece_cases _ index with ⟨hp, hnp⟩ | ⟨_, hnp⟩
    · rw [hnp] at hnew
      injection hnew with hnew
      subst hnew
      exact ⟨[Event.scoreChanged (s.score + 100 * (fullRowCount b1 : Int)), Event.update,
          Event.update], hlock, hloop, rfl, rfl, rfl, by simp, by simp [hpos2, Event.isScoreChanged],
        fun _ => hp⟩
    · rw [hnp] at hnew
      injection hnew with hnew
      subst hnew
      exact ⟨[Event.scoreChanged (s.score + 100 * (fullRowCount b1 : Int)), Event.update,
          Event.gameOver], hlock, hloop, rfl, rfl, rfl, by simp,
        by simp [hpos2, Event.isScoreChanged], fun hc => absurd (by simp) hc⟩
  · have hzero2 : ¬ 0 < fullRowCount b1 := by
      intro hc
      exact hzero (by exact_mod_cast hc)
    have hz : fullRowCount b1 = 0 := by omega
    subst hs1
    rcases newPiece_cases _ index with ⟨hp, hnp⟩ | ⟨_, hnp⟩
    · rw [hnp] at hnew
      injection hnew with hnew
      subst hnew
      exact ⟨[Event.update], hlock, hloop, rfl, rfl, by simp [hz], rfl,
        by simp [hz, Event.isScoreChanged], fun _ => hp⟩
    · rw [hnp] at hnew
      injection hnew with hnew
      subst hnew
      exact ⟨[Event.gameOver], hlock, hloop, rfl, rfl, by simp [hz], rfl,
        by simp [hz, Event.isScoreChanged], fun hc => absurd (by simp) hc⟩

/-! ## Progress of the commands -/

theorem Progress.refl (s : TetrisWidget) : Progress s s :=
  ⟨⟨0, by simp⟩, ⟨[], by simp⟩, fun h => h⟩

theorem Progress.trans {s s1 s2 : TetrisWidget} (h1 : Progress s s1) (h2 : Progress s1 s2) :
    Progress s s2 := by
  obtain ⟨⟨m1, hm1⟩, ⟨t1, ht1⟩, hi1⟩ := h1
  obtain ⟨⟨m2, hm2⟩, ⟨t2, ht2⟩, hi2⟩ := h2
  refine ⟨⟨m1 + m2, ?_⟩, ⟨t1 ++ t2, ?_⟩, fun h => hi2 (hi1 h)⟩
  · rw [hm2, hm1]
    push_cast
    ring
  · rw [ht2, ht1, List.append_assoc]

theorem tryMove_cases (s : TetrisWidget) (p : Piece) (x y : Int) (r : Bool) (s2 : TetrisWidget)
    (h : tryMove s p x y = .ok (r, s2)) :
    (r = true ∧ PlacementOk s.board p x y ∧
      s2 = { s with currentPiece := p, currentX := x, currentY := y,
                    events := s.events ++ [Event.update] }) ∨
    (r = false ∧ ¬ PlacementOk s.board p x y ∧ s2 = s) := by
  by_cases hp : PlacementOk s.board p x y
  · rw [tryMove_ok_true s p x y hp] at h
    injection h with h
    injection h with h1 h2
    exact Or.inl ⟨h1.symm, hp, h2.symm⟩
  · rw [tryMove_ok_false s p x y hp] at h
    injection h with h
    injection h with h1 h2
    exact Or.inr ⟨h1.symm, hp, h2.symm⟩

theorem tryMove_progress (s : TetrisWidget) (p : Piece) (x y : Int) (r : Bool)
    (s2 : TetrisWidget) (h : tryMove s p x y = .ok (r, s2)) : Progress s s2 := by
  rcases tryMove_cases s p x y r s2 h with ⟨_, hp, hs⟩ | ⟨_, _, hs⟩
  · subst hs
    exact ⟨⟨0, by simp⟩, ⟨[Event.update], rfl⟩, fun _ _ => hp⟩
  · subst hs
    exact Progress.refl _

theorem pieceDropped_progress (fuel : Nat) (s s2 : TetrisWidget) (index : Fin 7)
    (h : pieceDropped fuel s index = .ok s2) : Progress s s2 := by
  obtain ⟨b1, b2, n, tail, _, _, _, _, hscore, hev, _, hfit⟩ :=
    pieceDropped_cases fuel s s2 index h
  refine ⟨⟨n, hscore⟩, ⟨tail, hev⟩, ?_⟩
  intro _ hrun
  apply hfit
  intro hc
  apply hrun
  rw [hev]
  exact List.mem_append_right _ hc

theorem oneLineDown_progress (fuel : Nat) (s s2 : TetrisWidget) (index : Fin 7) (r : Bool)
    (h : oneLineDown fuel s index = .ok (r, s2)) : Progress s s2 := by
  unfold oneLineDown at h
  obtain ⟨⟨moved, s1⟩, hmove, hrest⟩ := bind_eq_ok h
  have hp1 := tryMove_progress _ _ _ _ _ _ hmove
  dsimp only at hrest
  cases moved with
  | true =>
    simp only [Bool.not_true, Bool.false_eq_true, if_false] at hrest
    injection hrest with hrest
    injection hrest with _ hs
    subst hs
    exact hp1
  | false =>
    simp only [Bool.not_false, if_true] at hrest
    obtain ⟨s3, hdrop, hret⟩ := bind_eq_ok hrest
    injection hret with hret
    injection hret with _ hs
    subst hs
    exact hp1.trans (pieceDropped_progress fuel s1 s3 index hdrop)

theorem dropDown_progress (lineFuel : Nat) : ∀ (fuel : Nat) (s s2 : TetrisWidget)
    (index : Fin 7), dropDown lineFuel fuel s index = .ok s2 → Progress s s2 := by
  intro fuel
  induction fuel with
  | zero =>
    intro s s2 index h
    cases h
  | succ fuel ih =>
    intro s s2 index h
    unfold dropDown at h
    obtain ⟨⟨again, s1⟩, hone, hrest⟩ := bind_eq_ok h
    have hp1 := oneLineDown_progress _ _ _ _ _ hone
    dsimp only at hrest
    cases again with
    | true =>
      simp only [if_true] at hrest
      exact hp1.trans (ih s1 s2 index hrest)
    | false =>
      simp only [Bool.false_eq_true, if_false] at hrest
      injection hrest with hs
      subst hs
      exact hp1

theorem keyPressEvent_progress (fuel : Nat) (s s2 : TetrisWidget) (key : Key) (index : Fin 7)
    (h : keyPressEvent fuel s key index = .ok s2) : Progress s s2 := by
  have move : ∀ (p : Piece) (x y : Int),
      (tryMove s p x y >>= fun r => (pure r.2 : Except Fault TetrisWidget)) = .ok s2 →
      Progress s s2 := by
    intro p x y hm
    obtain ⟨⟨r, s1⟩, hmove, hret⟩ := bind_eq_ok hm
    injection hret with hs
    dsimp only at hs
    subst hs
    exact tryMove_progress _ _ _ _ _ _ hmove
  cases key with
  | left => exact move _ _ _ h
  | right => exact move _ _ _ h
  | down => exact move _ _ _ h
  | up => exact move _ _ _ h
  | space => exact dropDown_progress fuel fuel s s2 index h
  | other =>
    injection h with hs
    subst hs
    exact Progress.refl _

theorem step_progress (fuel : Nat) (s s2 : TetrisWidget) (c : Command) (index : Fin 7)
    (h : step fuel s c index = .ok s2) : Progress s s2 := by
  cases c with
  | key k => exact keyPressEvent_progress fuel s s2 k index h
  | tick =>
    unfold step at h
    dsimp only at h
    by_cases ht : s.timerActive = true
    · rw [if_pos ht] at h
      unfold timerEvent at h
      obtain ⟨⟨r, s1⟩, hone, hret⟩ := bind_eq_ok h
      injection hret with hs
      subst hs
      exact oneLineDown_progress _ _ _ _ _ hone
    · rw [if_neg ht] at h
      injection h with hs
      subst hs
      exact Progress.refl _

theorem construct_cases (index : Fin 7) (s : TetrisWidget) (h : construct index = .ok s) :
    s.score = 0 ∧ (Event.gameOver ∉ s.events → ActiveFits s) := by
  unfold construct at h
  obtain ⟨s1, hnew, hret⟩ := bind_eq_ok h
  injection hret with hs
  subst hs
  rcases newPiece_cases (clearBoard
      { board := fun _ _ => 0, currentPiece := { shape := fun _ _ => 0, color := 0 },
        currentX := 0, currentY := 0, score := 0, timerActive := false, events := [] })
      index with ⟨hp, hnp⟩ | ⟨_, hnp⟩
  · rw [hnp] at hnew
    injection hnew with hnew
    subst hnew
    exact ⟨rfl, fun _ => hp⟩
  · rw [hnp] at hnew
    injection hnew with hnew
    subst hnew
    exact ⟨rfl, fun hc => absurd (by simp) hc⟩

theorem reachable_invariant (s : TetrisWidget) (h : Reachable s) :
    (∃ m : Nat, s.score = 100 * (m : Int)) ∧ (Event.gameOver ∉ s.events → ActiveFits s) := by
  induction h with
  | fresh index s hc =>
    obtain ⟨hscore, hfit⟩ := construct_cases index s hc
    exact ⟨⟨0, by simp [hscore]⟩, hfit⟩
  | next fuel s s2 c index _ hstep ih =>
    obtain ⟨⟨m, hm⟩, _, hinv⟩ := step_progress fuel s s2 c index hstep
    obtain ⟨⟨m0, hm0⟩, hfit⟩ := ih
    refine ⟨⟨m0 + m, ?_⟩, hinv hfit⟩
    rw [hm, hm0]
    push_cast
    ring

theorem isOk_eq_ok {α : Type} {x : Except Fault α} (h : x.isOk = true) : ∃ a, x = .ok a := by
  cases x with
  | error e => cases h
  | ok a => exact ⟨a, rfl⟩

theorem removeFullLines_ends (s : TetrisWidget) (fuel : Nat)
    (h0 : ¬ IsFull (s.board topRow)) (hfuel : 2 * BoardHeight < fuel) :
    ∃ s2 : TetrisWidget, removeFullLines fuel s = .ok s2 := by
  obtain ⟨b2, hok, _, _⟩ := removeFullLinesLoop_total s.board fuel h0 hfuel
  by_cases hn : (fullRowCount s.board : Int) > 0
  · exact ⟨_, by simp only [removeFullLines, hok, bind, Except.bind, if_pos hn]; rfl⟩
  · exact ⟨_, by simp only [removeFullLines, hok, bind, Except.bind, if_neg hn]; rfl⟩

theorem pieceDropped_total (fuel : Nat) (s : TetrisWidget) (index : Fin 7) (b1 : Board)
    (hlock : lockScan s.currentPiece s.currentX s.currentY s.board cells4 = .ok b1)
    (h0 : ¬ IsFull (b1 topRow)) (hfuel : 2 * BoardHeight < fuel) :
    ∃ s2 : TetrisWidget, pieceDropped fuel s index = .ok s2 := by
  obtain ⟨s1, hrem⟩ := removeFullLines_ends { s with board := b1 } fuel h0 hfuel
  have hpd : pieceDropped fuel s index = newPiece s1 index := by
    simp only [pieceDropped, hlock, hrem, bind, Except.bind]
  rcases newPiece_cases s1 index with ⟨_, hnp⟩ | ⟨_, hnp⟩
  · exact ⟨_, hpd.trans hnp⟩
  · exact ⟨_, hpd.trans hnp⟩

/-- C6. For every landing (pieceDropped) that runs to its end, with n the
number of rows the scan cleared (the number of full rows of the board after the
lock): when n = 0 the score is unchanged and no scoreChanged event is emitted;
when n > 0 exactly one scoreChanged event is emitted, and provided the sum
score + 100 * n does not overflow an int, the score after the landing is the
score before plus exactly 100 * n and the event carries that new total. A
landing runs to its end whenever the lock succeeds and leaves row 0 not full.
Consequently no command whose sum stays within the range of int decreases the
score, and in every state reachable from a fresh game whose score has not
passed INT_MAX (so that no addition has overflowed so far) the score is
non-negative and a multiple of 100. -/
theorem pieceDropped_score :
    (∀ (fuel : Nat) (s : TetrisWidget) (index : Fin 7),
      (pieceDropped fuel s index).isOk = true →
      ∃ (s2 : TetrisWidget) (b1 b2 : Board) (n : Nat) (tail : List Event),
        pieceDropped fuel s index = .ok s2 ∧
        lockScan s.currentPiece s.currentX s.currentY s.board cells4 = .ok b1 ∧
        removeFullLinesLoop fuel b1 ((BoardHeight : Int) - 1) 0 = .ok (b2, (n : Int)) ∧
        n = fullRowCount b1 ∧
        s2.events = s.events ++ tail ∧
        (n = 0 → s2.score = s.score ∧ tail.filter Event.isScoreChanged = []) ∧
        (0 < n → (tail.filter Event.isScoreChanged).length = 1) ∧
        (0 < n → IsInt s.score → s.score + 100 * (n : Int) ≤ INT_MAX →
          s2.score = s.score + 100 * (n : Int) ∧ IsInt s2.score ∧
          tail.filter Event.isScoreChanged = [Event.scoreChanged s2.score])) ∧
    (∀ (fuel : Nat) (s : TetrisWidget) (index : Fin 7) (b1 : Board),
      lockScan s.currentPiece s.currentX s.currentY s.board cells4 = .ok b1 →
      ¬ IsFull (b1 topRow) → 2 * BoardHeight < fuel →
      (pieceDropped fuel s index).isOk = true) ∧
    (∀ (fuel : Nat) (s s2 : TetrisWidget) (c : Command) (index : Fin 7),
      step fuel s c index = .ok s2 → IsInt s.score → s2.score ≤ INT_MAX →
      s.score ≤ s2.score ∧ IsInt s2.score) ∧
    (∀ s : TetrisWidget, Reachable s → s.score ≤ INT_MAX →
      0 ≤ s.score ∧ (100 : Int) ∣ s.score ∧ IsInt s.score) := by
  refine ⟨?_, ?_, ?_, ?_⟩
  · intro fuel s index hok
    obtain ⟨s2, hs2⟩ := isOk_eq_ok hok
    obtain ⟨b1, b2, n, tail, hlock, hloop, hn, _, hscore, hev, hfilter, _⟩ :=
      pieceDropped_cases fuel s s2 index hs2
    refine ⟨s2, b1, b2, n, tail, hs2, hlock, hloop, hn, hev, ?_, ?_, ?_⟩
    · intro hz
      refine ⟨by rw [hscore, hz]; simp, ?_⟩
      rw [hfilter, if_neg (by omega)]
    · intro hpos
      rw [hfilter, if_pos hpos]
      rfl
    · intro hpos hint hsum
      refine ⟨hscore, ?_, ?_⟩
      · rw [hscore]
        have h1 := hint.1
        have h2 : (0 : Int) ≤ 100 * (n : Int) := by positivity
        exact ⟨by omega, hsum⟩
      · rw [hfilter, if_pos hpos]
  · intro fuel s index b1 hlock h0 hfuel
    obtain ⟨s2, hs2⟩ := pieceDropped_total fuel s index b1 hlock h0 hfuel
    rw [hs2]
    rfl
  · intro fuel s s2 c index hstep hint hmax
    obtain ⟨⟨m, hm⟩, _, _⟩ := step_progress fuel s s2 c index hstep
    have h1 := hint.1
    have h2 : (0 : Int) ≤ 100 * (m : Int) := by positivity
    exact ⟨by omega, by omega, hmax⟩
  · intro s hr hmax
    obtain ⟨⟨m, hm⟩, _⟩ := reachable_invariant s hr
    have h2 : (0 : Int) ≤ 100 * (m : Int) := by positivity
    refine ⟨by omega, ?_, ?_, hmax⟩
    · rw [hm]
      exact Dvd.intro _ rfl
    · have : INT_MIN ≤ 0 := by decide
      omega

/-- Instance of C6: the I piece resting on row 19, whose other six cells are
occupied, lands; one row is cleared, the score goes from 0 to 100 (no
overflow) and the only scoreChanged event carries 100. -/
theorem pieceDropped_score_witness :
    ((pieceDropped 41 landingWidget 0).isOk = true ∧ IsInt landingWidget.score ∧
      landingWidget.score + 100 * 1 ≤ INT_MAX) ∧
    (∃ (s2 : TetrisWidget) (b1 b2 : Board) (n : Nat) (tail : List Event),
        pieceDropped 41 landingWidget 0 = .ok s2 ∧
        lockScan landingWidget.currentPiece landingWidget.currentX landingWidget.currentY
          landingWidget.board cells4 = .ok b1 ∧
        removeFullLinesLoop 41 b1 ((BoardHeight : Int) - 1) 0 = .ok (b2, (n : Int)) ∧
        n = fullRowCount b1 ∧
        s2.events = landingWidget.events ++ tail ∧
        (n = 0 → s2.score = landingWidget.score ∧ tail.filter Event.isScoreChanged = []) ∧
        (0 < n → (tail.filter Event.isScoreChanged).length = 1) ∧
        (0 < n → IsInt landingWidget.score →
          landingWidget.score + 100 * (n : Int) ≤ INT_MAX →
          s2.score = landingWidget.score + 100 * (n : Int) ∧ IsInt s2.score ∧
          tail.filter Event.isScoreChanged = [Event.scoreChanged s2.score])) ∧
    (pieceDropped 41 landingWidget 0).toOption.map (fun s2 => (s2.score, s2.events)) =
      some (100, [Event.scoreChanged 100, Event.update, Event.update]) :=
  ⟨⟨by decide, by decide, by decide⟩,
    pieceDropped_score.1 41 landingWidget 0 (by decide), by decide⟩

/-! ## The running-game invariant -/

/-- C10. In every state reachable from a fresh game (empty board, first spawn)
by any sequence of key and timer commands that run to their end, for any drawn
shape indices, as long as no spawn has failed (no "Game Over" box was shown),
every occupied cell of the active piece offset by its anchor has
0 <= x < BoardWidth and y < BoardHeight and, when y >= 0, maps to an empty board
cell. -/
theorem active_piece_fits (s : TetrisWidget) (hreach : Reachable s)
    (hrun : Event.gameOver ∉ s.events) :
    ∀ i j : Fin 4, s.currentPiece.shape i j ≠ 0 →
      0 ≤ s.currentX + (j.val : Int) ∧ s.currentX + (j.val : Int) < (BoardWidth : Int) ∧
      s.currentY + (i.val : Int) < (BoardHeight : Int) ∧
      (0 ≤ s.currentY + (i.val : Int) →
        s.board.read (s.currentY + (i.val : Int)) (s.currentX + (j.val : Int)) = .ok 0) := by
  intro i j hocc
  obtain ⟨h1, h2, h3, h4⟩ := (reachable_invariant s hreach).2 hrun i j hocc
  refine ⟨h1, h2, h3, ?_⟩
  intro hy
  rcases h4 with h4 | h4
  · omega
  · exact h4

theorem construct_zero : construct 0 = .ok freshWidget := by
  rfl

theorem step_left_fresh : step 41 freshWidget (Command.key Key.left) 0 = .ok freshWidgetLeft := by
  rfl

/-- Instance of C10: the fresh game after the left key is reachable, no spawn
has failed, and its I piece at anchor (2, 0) fits. -/
theorem active_piece_fits_witness :
    (Reachable freshWidgetLeft ∧ Event.gameOver ∉ freshWidgetLeft.events) ∧
    ∀ i j : Fin 4, freshWidgetLeft.currentPiece.shape i j ≠ 0 →
      0 ≤ freshWidgetLeft.currentX + (j.val : Int) ∧
      freshWidgetLeft.currentX + (j.val : Int) < (BoardWidth : Int) ∧
      freshWidgetLeft.currentY + (i.val : Int) < (BoardHeight : Int) ∧
      (0 ≤ freshWidgetLeft.currentY + (i.val : Int) →
        freshWidgetLeft.board.read (freshWidgetLeft.currentY + (i.val : Int))
          (freshWidgetLeft.currentX + (j.val : Int)) = .ok 0) :=
  ⟨⟨Reachable.next 41 freshWidget freshWidgetLeft (Command.key Key.left) 0
      (Reachable.fresh 0 freshWidget construct_zero) step_left_fresh, by decide⟩,
    active_piece_fits freshWidgetLeft
      (Reachable.next 41 freshWidget freshWidgetLeft (Command.key Key.left) 0
        (Reachable.fresh 0 freshWidget construct_zero) step_left_fresh) (by decide)⟩

/-! ## Spawning on the empty board -/

theorem spawn_anchor : (BoardWidth : Int) / 2 - 2 = 3 := by
  decide

theorem spawn_fits_empty (index : Fin 7) :
    PlacementOk emptyBoard (spawned index) ((BoardWidth : Int) / 2 - 2) 0 := by
  revert index
  decide

theorem spawn_inRange (index : Fin 7) :
    InRange (spawned index) ((BoardWidth : Int) / 2 - 2) 0 := by
  revert index
  decide

theorem cellCount_spawned (index : Fin 7) : cellCount (spawned index) = 4 := by
  revert index
  decide

/-! ## Rotations keep the number of occupied cells -/

theorem cellCount_rotatedRight (p : Piece) : cellCount p.rotatedRight = cellCount p := by
  unfold cellCount
  apply Finset.card_bij (fun ij _ => ((⟨3 - ij.2.val, by omega⟩ : Fin 4), ij.1))
  · intro ij h
    simp only [Finset.mem_filter, Finset.mem_univ, true_and] at h ⊢
    exact h
  · intro a _ b _ h
    simp only [Prod.mk.injEq, Fin.mk.injEq] at h
    apply Prod.ext
    · exact h.2
    · apply Fin.ext
      have := a.2.isLt
      have := b.2.isLt
      omega
  · intro b hb
    simp only [Finset.mem_filter, Finset.mem_univ, true_and] at hb
    refine ⟨(b.2, ⟨3 - b.1.val, by omega⟩), ?_, ?_⟩
    · simp only [Finset.mem_filter, Finset.mem_univ, true_and]
      show p.shape ⟨3 - (3 - b.1.val), _⟩ b.2 ≠ 0
      have hb1 : (⟨3 - (3 - b.1.val), by omega⟩ : Fin 4) = b.1 := by
        apply Fin.ext
        show 3 - (3 - b.1.val) = b.1.val
        have := b.1.isLt
        omega
      rw [hb1]
      exact hb
    · apply Prod.ext
      · apply Fin.ext
        show 3 - (3 - b.1.val) = b.1.val
        have := b.1.isLt
        omega
      · rfl

theorem cellCount_rotatedLeft (p : Piece) : cellCount p.rotatedLeft = cellCount p := by
  have h := cellCount_rotatedRight p.rotatedLeft
  rw [rotatedRight_rotatedLeft] at h
  exact h.symm

/-! ## What holds in every reachable state -/

theorem tryMove_sound (s : TetrisWidget) (p : Piece) (x y : Int) (r : Bool) (s2 : TetrisWidget)
    (h : tryMove s p x y = .ok (r, s2)) (hs : Sound s) (hcount : cellCount p = 4)
    (hcol : ∃ index : Fin 7, p.color = colors index) (hy : 0 ≤ y) : Sound s2 := by
  rcases tryMove_cases s p x y r s2 h with ⟨_, hp, hs2⟩ | ⟨_, _, hs2⟩
  · subst hs2
    refine ⟨hy, ?_, hcount, hcol, ?_⟩
    · intro i j hocc
      obtain ⟨h1, h2, h3, _⟩ := hp i j hocc
      exact ⟨h1, h2, h3⟩
    · intro hmem
      apply hs.2.2.2.2
      rcases List.mem_append.1 hmem with hm | hm
      · exact hm
      · simp at hm
  · subst hs2
    exact hs

theorem newPiece_sound (s s2 : TetrisWidget) (index : Fin 7) (h : newPiece s index = .ok s2)
    (ht : Event.gameOver ∈ s.events → s.timerActive = false) : Sound s2 := by
  rcases newPiece_cases s index with ⟨_, hnp⟩ | ⟨_, hnp⟩
  · rw [hnp] at h
    injection h with h
    subst h
    refine ⟨le_refl _, spawn_inRange index, cellCount_spawned index, ⟨index, rfl⟩, ?_⟩
    intro hmem
    apply ht
    rcases List.mem_append.1 hmem with hm | hm
    · exact hm
    · simp at hm
  · rw [hnp] at h
    injection h with h
    subst h
    exact ⟨le_refl _, spawn_inRange index, cellCount_spawned index, ⟨index, rfl⟩, fun _ => rfl⟩

theorem removeFullLines_timer (fuel : Nat) (s s1 : TetrisWidget)
    (h : removeFullLines fuel s = .ok s1)
    (ht : Event.gameOver ∈ s.events → s.timerActive = false) :
    Event.gameOver ∈ s1.events → s1.timerActive = false := by
  obtain ⟨b2, n, _, hs1⟩ := removeFullLines_cases fuel s s1 h
  rcases hs1 with ⟨_, hs1⟩ | ⟨_, hs1⟩
  · subst hs1
    intro hmem
    apply ht
    rcases List.mem_append.1 hmem with hm | hm
    · exact hm
    · simp at hm
  · subst hs1
    exact ht

theorem pieceDropped_sound (fuel : Nat) (s s2 : TetrisWidget) (index : Fin 7)
    (h : pieceDropped fuel s index = .ok s2)
    (ht : Event.gameOver ∈ s.events → s.timerActive = false) : Sound s2 := by
  unfold pieceDropped at h
  obtain ⟨b1, _, h⟩ := bind_eq_ok h
  obtain ⟨s1, hrem, hnew⟩ := bind_eq_ok h
  exact newPiece_sound s1 s2 index hnew (removeFullLines_timer fuel _ s1 hrem ht)

theorem oneLineDown_sound (fuel : Nat) (s s2 : TetrisWidget) (index : Fin 7) (r : Bool)
    (h : oneLineDown fuel s index = .ok (r, s2)) (hs : Sound s) : Sound s2 := by
  unfold oneLineDown at h
  obtain ⟨⟨moved, s1⟩, hmove, hrest⟩ := bind_eq_ok h
  have hs1 : Sound s1 :=
    tryMove_sound _ _ _ _ _ _ hmove hs hs.2.2.1 hs.2.2.2.1 (by have := hs.1; omega)
  dsimp only at hrest
  cases moved with
  | true =>
    simp only [Bool.not_true, Bool.false_eq_true, if_false] at hrest
    injection hrest with hrest
    injection hrest with _ hs2
    subst hs2
    exact hs1
  | false =>
    simp only [Bool.not_false, if_true] at hrest
    obtain ⟨s3, hdrop, hret⟩ := bind_eq_ok hrest
    injection hret with hret
    injection hret with _ hs2
    subst hs2
    exact pieceDropped_sound fuel s1 s3 index hdrop hs1.2.2.2.2

theorem dropDown_sound (lineFuel : Nat) : ∀ (fuel : Nat) (s s2 : TetrisWidget)
    (index : Fin 7), dropDown lineFuel fuel s index = .ok s2 → Sound s → Sound s2 := by
  intro fuel
  induction fuel with
  | zero =>
    intro s s2 index h
    cases h
  | succ fuel ih =>
    intro s s2 index h hs
    unfold dropDown at h
    obtain ⟨⟨again, s1⟩, hone, hrest⟩ := bind_eq_ok h
    have hs1 := oneLineDown_sound _ _ _ _ _ hone hs
    dsimp only at hrest
    cases again with
    | true =>
      simp only [if_true] at hrest
      exact ih s1 s2 index hrest hs1
    | false =>
      simp only [Bool.false_eq_true, if_false] at hrest
      injection hrest with hs2
      subst hs2
      exact hs1

theorem keyPressEvent_sound (fuel : Nat) (s s2 : TetrisWidget) (key : Key) (index : Fin 7)
    (h : keyPressEvent fuel s key index = .ok s2) (hs : Sound s) : Sound s2 := by
  have move : ∀ (p : Piece) (x y : Int), cellCount p = 4 →
      (∃ index : Fin 7, p.color = colors index) → 0 ≤ y →
      (tryMove s p x y >>= fun r => (pure r.2 : Except Fault TetrisWidget)) = .ok s2 →
      Sound s2 := by
    intro p x y hc hcol hy hm
    obtain ⟨⟨r, s1⟩, hmove, hret⟩ := bind_eq_ok hm
    injection hret with hs2
    dsimp only at hs2
    subst hs2
    exact tryMove_sound _ _ _ _ _ _ hmove hs hc hcol hy
  cases key with
  | left => exact move _ _ _ hs.2.2.1 hs.2.2.2.1 hs.1 h
  | right => exact move _ _ _ hs.2.2.1 hs.2.2.2.1 hs.1 h
  | down =>
    exact move _ _ _ ((cellCount_rotatedRight _).trans hs.2.2.1) hs.2.2.2.1 hs.1 h
  | up =>
    exact move _ _ _ ((cellCount_rotatedLeft _).trans hs.2.2.1) hs.2.2.2.1 hs.1 h
  | space => exact dropDown_sound fuel fuel s s2 index h hs
  | other =>
    injection h with hs2
    subst hs2
    exact hs

theorem step_sound (fuel : Nat) (s s2 : TetrisWidget) (c : Command) (index : Fin 7)
    (h : step fuel s c index = .ok s2) (hs : Sound s) : Sound s2 := by
  cases c with
  | key k => exact keyPressEvent_sound fuel s s2 k index h hs
  | tick =>
    unfold step at h
    dsimp only at h
    by_cases ht : s.timerActive = true
    · rw [if_pos ht] at h
      unfold timerEvent at h
      obtain ⟨⟨r, s1⟩, hone, hret⟩ := bind_eq_ok h
      injection hret with hs2
      subst hs2
      exact oneLineDown_sound _ _ _ _ _ hone hs
    · rw [if_neg ht] at h
      injection h with hs2
      subst hs2
      exact hs

/-- The constructor yields the fresh game: empty board, the drawn shape at
anchor (3, 0), score 0, timer running, one repaint requested. -/
theorem construct_eq (index : Fin 7) :
    construct index = .ok
      { board := emptyBoard, currentPiece := spawned index,
        currentX := (BoardWidth : Int) / 2 - 2, currentY := 0, score := 0,
        timerActive := true, events := [Event.update] } := by
  rcases newPiece_cases (clearBoard
      { board := fun _ _ => 0, currentPiece := { shape := fun _ _ => 0, color := 0 },
        currentX := 0, currentY := 0, score := 0, timerActive := false, events := [] })
      index with ⟨_, hnp⟩ | ⟨hno, _⟩
  · unfold construct
    simp only [hnp, bind, Except.bind]
    rfl
  · exact absurd (spawn_fits_empty index) hno

theorem construct_sound (index : Fin 7) (s : TetrisWidget) (h : construct index = .ok s) :
    Sound s := by
  rw [construct_eq] at h
  injection h with h
  subst h
  refine ⟨le_refl _, spawn_inRange index, cellCount_spawned index, ⟨index, rfl⟩, ?_⟩
  intro hmem
  simp at hmem

theorem reachable_sound (s : TetrisWidget) (h : Reachable s) : Sound s := by
  induction h with
  | fresh index s hc => exact construct_sound index s hc
  | next fuel s s2 c index _ hstep ih => exact step_sound fuel s s2 c index hstep ih

theorem freshWidgetLeft_reachable : Reachable freshWidgetLeft :=
  Reachable.next 41 freshWidget freshWidgetLeft (Command.key Key.left) 0
    (Reachable.fresh 0 freshWidget (by rfl)) (by rfl)

/-- C13. On the empty 10x20 board, for each of the 7 canonical shapes, the
spawn anchor is (BoardWidth / 2 - 2, 0) = (3, 0), the placement test succeeds
there, newPiece installs the shape at that anchor without signalling game-over,
and so the constructor never starts a game in game-over. -/
theorem spawn_on_empty_board_succeeds (index : Fin 7) :
    (BoardWidth : Int) / 2 - 2 = 3 ∧
    PlacementOk emptyBoard (spawned index) 3 0 ∧
    (∀ s : TetrisWidget, s.board = emptyBoard →
      ∃ s2 : TetrisWidget, newPiece s index = .ok s2 ∧
        s2.currentPiece = spawned index ∧ s2.currentX = 3 ∧ s2.currentY = 0 ∧
        s2.board = emptyBoard ∧ s2.events = s.events ++ [Event.update] ∧
        s2.timerActive = s.timerActive) ∧
    (∃ s2 : TetrisWidget, construct index = .ok s2 ∧
      s2.board = emptyBoard ∧ s2.currentPiece = spawned index ∧
      s2.currentX = 3 ∧ s2.currentY = 0 ∧
      Event.gameOver ∉ s2.events ∧ s2.timerActive = true) := by
  have hfit := spawn_fits_empty index
  refine ⟨spawn_anchor, by rw [← spawn_anchor]; exact hfit, ?_, ?_⟩
  · intro s hb
    rcases newPiece_cases s index with ⟨_, hnp⟩ | ⟨hno, _⟩
    · exact ⟨_, hnp, rfl, spawn_anchor, rfl, hb, rfl, rfl⟩
    · rw [hb] at hno
      exact absurd hfit hno
  · exact ⟨_, construct_eq index, rfl, rfl, spawn_anchor, rfl, by simp, rfl⟩

/-- C15 as stated fails: on the board whose only empty cells are the four
cells the I piece covers at anchor (3, 0), the placement test for the spawned
I piece is true, newPiece logs no game-over event and leaves the timer
running. -/
theorem spawn_into_gap_example :
    (∀ (r : Fin BoardHeight) (c : Fin BoardWidth),
      spawnGapBoard 0 r c = 0 ↔ (r.val = 0 ∧ 3 ≤ c.val ∧ c.val ≤ 6)) ∧
    PlacementOk (spawnGapBoard 0) (spawned 0) 3 0 ∧
    (tryMove (widgetOn (spawnGapBoard 0)) (spawned 0) 3 0).toOption.map (fun r => r.1) =
      some true ∧
    (newPiece (widgetOn (spawnGapBoard 0)) 0).toOption.map
        (fun s => (s.events.count Event.gameOver, s.timerActive)) = some (0, true) := by
  refine ⟨by decide, by decide, by decide, by decide⟩

/-- C15, amended. Whenever every board cell covered by the spawned shape at
anchor (3, 0) is empty, whatever the other cells hold, newPiece finds the
placement test true and signals no game-over: the shape becomes the active
piece at (3, 0), one repaint is requested and the timer is left as it was.
Game-over is signalled, exactly once, exactly when the placement test at
(3, 0) fails. -/
theorem spawn_into_gap_succeeds (s : TetrisWidget) (index : Fin 7)
    (hgap : ∀ i j : Fin 4, (spawned index).shape i j ≠ 0 →
      s.board.read (0 + (i.val : Int)) (3 + (j.val : Int)) = .ok 0) :
    PlacementOk s.board (spawned index) 3 0 ∧
    (∃ s2 : TetrisWidget, newPiece s index = .ok s2 ∧
      s2.currentPiece = spawned index ∧ s2.currentX = 3 ∧ s2.currentY = 0 ∧
      s2.events = s.events ++ [Event.update] ∧ s2.timerActive = s.timerActive ∧
      s2.events.count Event.gameOver = s.events.count Event.gameOver) ∧
    (∀ (t : TetrisWidget) (k : Fin 7), ∃ t2 : TetrisWidget, newPiece t k = .ok t2 ∧
      (¬ PlacementOk t.board (spawned k) 3 0 ↔
        t2.events.count Event.gameOver = t.events.count Event.gameOver + 1) ∧
      (PlacementOk t.board (spawned k) 3 0 ↔
        t2.events.count Event.gameOver = t.events.count Event.gameOver)) := by
  have hfit : PlacementOk s.board (spawned index) 3 0 := by
    intro i j hocc
    have hr := spawn_inRange index i j hocc
    rw [spawn_anchor] at hr
    exact ⟨hr.1, hr.2.1, hr.2.2, Or.inr (hgap i j hocc)⟩
  refine ⟨hfit, ?_, ?_⟩
  · rcases newPiece_cases s index with ⟨_, hnp⟩ | ⟨hno, _⟩
    · exact ⟨_, hnp, rfl, spawn_anchor, rfl, rfl, rfl, by simp⟩
    · rw [spawn_anchor] at hno
      exact absurd hfit hno
  · intro t k
    rcases newPiece_cases t k with ⟨hp, hnp⟩ | ⟨hno, hnp⟩
    · rw [spawn_anchor] at hp
      refine ⟨_, hnp, ?_, ?_⟩
      · constructor
        · intro hc
          exact absurd hp hc
        · intro hc
          simp at hc
      · exact ⟨fun _ => by simp, fun _ => hp⟩
    · rw [spawn_anchor] at hno
      refine ⟨_, hnp, ?_, ?_⟩
      · exact ⟨fun _ => by simp, fun _ => hno⟩
      · constructor
        · intro hc
          exact absurd hc hno
        · intro hc
          simp at hc

/-- Instance of the amended C15 for the O piece: the only empty cells of the
board are the four cells it covers at anchor (3, 0). -/
theorem spawn_into_gap_succeeds_witness :
    (∀ i j : Fin 4, (spawned 3).shape i j ≠ 0 →
      (widgetOn (spawnGapBoard 3)).board.read (0 + (i.val : Int)) (3 + (j.val : Int)) =
        .ok 0) ∧
    (∃ s2 : TetrisWidget, newPiece (widgetOn (spawnGapBoard 3)) 3 = .ok s2 ∧
      s2.currentPiece = spawned 3 ∧ s2.currentX = 3 ∧ s2.currentY = 0 ∧
      s2.events = (widgetOn (spawnGapBoard 3)).events ++ [Event.update] ∧
      s2.timerActive = (widgetOn (spawnGapBoard 3)).timerActive ∧
      s2.events.count Event.gameOver =
        (widgetOn (spawnGapBoard 3)).events.count Event.gameOver) :=
  ⟨by decide, (spawn_into_gap_succeeds (widgetOn (spawnGapBoard 3)) 3 (by decide)).2.1⟩

/-- C18. In every state reachable from a fresh game by any sequence of commands
the anchor row currentY is non-negative, so every mask cell of the active piece
(occupied or not, rotated or not) has a non-negative board row, both at the
anchor (the lock loops) and one row below it (the descent test): the y < 0
exemption of the placement test and of the lock is never exercised. The anchor
row changes as the claim says: the four move and rotate keys keep it, a spawn
sets it to 0, and a successful one-row descent adds 1. -/
theorem anchor_row_nonneg (s : TetrisWidget) (h : Reachable s) :
    0 ≤ s.currentY ∧
    (∀ i : Fin 4, 0 ≤ s.currentY + (i.val : Int) ∧ 0 ≤ s.currentY + 1 + (i.val : Int)) ∧
    (∀ i j : Fin 4, s.currentPiece.shape i j ≠ 0 → 0 ≤ s.currentY + (i.val : Int)) ∧
    (∀ (fuel : Nat) (key : Key) (index : Fin 7) (s2 : TetrisWidget),
      key = Key.left ∨ key = Key.right ∨ key = Key.down ∨ key = Key.up →
      keyPressEvent fuel s key index = .ok s2 → s2.currentY = s.currentY) ∧
    (∀ (index : Fin 7) (s2 : TetrisWidget), newPiece s index = .ok s2 → s2.currentY = 0) ∧
    (∀ s2 : TetrisWidget,
      tryMove s s.currentPiece s.currentX (s.currentY + 1) = .ok (true, s2) →
      s2.currentY = s.currentY + 1) := by
  have hy := (reachable_sound s h).1
  refine ⟨hy, ?_, ?_, ?_, ?_, ?_⟩
  · intro i
    constructor <;> omega
  · intro i j _
    omega
  · intro fuel key index s2 hk hkey
    have keep : ∀ (p : Piece) (x : Int),
        (tryMove s p x s.currentY >>= fun r => (pure r.2 : Except Fault TetrisWidget)) =
          .ok s2 → s2.currentY = s.currentY := by
      intro p x hm
      obtain ⟨⟨r, s1⟩, hmove, hret⟩ := bind_eq_ok hm
      injection hret with hs2
      dsimp only at hs2
      subst hs2
      rcases tryMove_cases s p x s.currentY r s1 hmove with ⟨_, _, hs1⟩ | ⟨_, _, hs1⟩
      · rw [hs1]
      · rw [hs1]
    rcases hk with hk | hk | hk | hk <;> subst hk
    · exact keep _ _ hkey
    · exact keep _ _ hkey
    · exact keep _ _ hkey
    · exact keep _ _ hkey
  · intro index s2 hnew
    rcases newPiece_cases s index with ⟨_, hnp⟩ | ⟨_, hnp⟩
    · rw [hnp] at hnew
      injection hnew with hnew
      rw [← hnew]
    · rw [hnp] at hnew
      injection hnew with hnew
      rw [← hnew]
  · intro s2 hmove
    rcases tryMove_cases s _ _ _ true s2 hmove with ⟨_, _, hs2⟩ | ⟨hc, _, _⟩
    · rw [hs2]
    · cases hc

/-- Instance of C18: the fresh game after the left key. -/
theorem anchor_row_nonneg_witness :
    Reachable freshWidgetLeft ∧
    (0 ≤ freshWidgetLeft.currentY ∧
      (∀ i : Fin 4, 0 ≤ freshWidgetLeft.currentY + (i.val : Int) ∧
        0 ≤ freshWidgetLeft.currentY + 1 + (i.val : Int)) ∧
      (∀ i j : Fin 4, freshWidgetLeft.currentPiece.shape i j ≠ 0 →
        0 ≤ freshWidgetLeft.currentY + (i.val : Int)) ∧
      (∀ (fuel : Nat) (key : Key) (index : Fin 7) (s2 : TetrisWidget),
        key = Key.left ∨ key = Key.right ∨ key = Key.down ∨ key = Key.up →
        keyPressEvent fuel freshWidgetLeft key index = .ok s2 →
        s2.currentY = freshWidgetLeft.currentY) ∧
      (∀ (index : Fin 7) (s2 : TetrisWidget),
        newPiece freshWidgetLeft index = .ok s2 → s2.currentY = 0) ∧
      (∀ s2 : TetrisWidget,
        tryMove freshWidgetLeft freshWidgetLeft.currentPiece freshWidgetLeft.currentX
          (freshWidgetLeft.currentY + 1) = .ok (true, s2) →
        s2.currentY = freshWidgetLeft.currentY + 1)) :=
  ⟨freshWidgetLeft_reachable, anchor_row_nonneg freshWidgetLeft freshWidgetLeft_reachable⟩

/-- C20. Every active piece is a tetromino: each of the 7 shape tables has
exactly four occupied cells, the 7 masks are pairwise distinct, rotatedRight
and rotatedLeft preserve the number of occupied cells of any mask, and in every
reachable state the mask of the active piece has exactly four occupied
cells. -/
theorem active_piece_is_tetromino :
    (∀ index : Fin 7, cellCount (spawned index) = 4) ∧
    (∀ a b : Fin 7, a ≠ b → shapes a ≠ shapes b) ∧
    (∀ p : Piece, cellCount p.rotatedRight = cellCount p ∧
      cellCount p.rotatedLeft = cellCount p) ∧
    (∀ s : TetrisWidget, Reachable s → cellCount s.currentPiece = 4) := by
  refine ⟨cellCount_spawned, by decide, ?_, ?_⟩
  · intro p
    exact ⟨cellCount_rotatedRight p, cellCount_rotatedLeft p⟩
  · intro s h
    exact (reachable_sound s h).2.2.1

/-! ## The lock loops on a piece inside the board -/

theorem lockScan_cells4 (b : Board) (p : Piece) (x y : Int) (hin : InRange p x y) :
    ∃ b2 : Board, lockScan p x y b cells4 = .ok b2 ∧
      (∀ (r : Fin BoardHeight) (c : Fin BoardWidth),
        (∃ i j : Fin 4, p.shape i j ≠ 0 ∧ y + (i.val : Int) = (r.val : Int) ∧
          x + (j.val : Int) = (c.val : Int)) → b2 r c = p.color) ∧
      (∀ (r : Fin BoardHeight) (c : Fin BoardWidth),
        (¬ ∃ i j : Fin 4, p.shape i j ≠ 0 ∧ y + (i.val : Int) = (r.val : Int) ∧
          x + (j.val : Int) = (c.val : Int)) → b2 r c = b r c) := by
  obtain ⟨b2, hb2, hspec⟩ :=
    lockScan_spec p x y cells4 b (fun ij _ hs => hin ij.1 ij.2 hs)
  refine ⟨b2, hb2, ?_, ?_⟩
  · rintro r c ⟨i, j, h⟩
    exact (hspec r c).1 ⟨(i, j), mem_cells4 i j, h⟩
  · intro r c hn
    apply (hspec r c).2
    rintro ⟨ij, _, h⟩
    exact hn ⟨ij.1, ij.2, h⟩

/-! ## Board accesses stay in bounds -/

theorem bind_eq_error {α β : Type} {x : Except Fault α} {f : α → Except Fault β} {e : Fault}
    (h : (x >>= f) = .error e) : x = .error e ∨ ∃ a, x = .ok a ∧ f a = .error e := by
  cases x with
  | error e2 =>
    left
    have h2 : (Except.error e2 : Except Fault β) = Except.error e := h
    injection h2 with h3
    rw [h3]
  | ok a => exact Or.inr ⟨a, rfl, h⟩

theorem removeFullLinesLoop_fault (fuel : Nat) (b : Board) (e : Fault)
    (h : removeFullLinesLoop fuel b ((BoardHeight : Int) - 1) 0 = .error e) :
    e = Fault.outOfFuel := by
  by_cases h0 : rowFull (rowAt b 0) = true
  · have ht := removeFullLinesLoop_topFull fuel b (BoardHeight - 1) 0 (by decide) h0
    rw [← bottom_index, h] at ht
    injection ht
  · have h0f : rowFull (rowAt b 0) = false := by
      cases hc : rowFull (rowAt b 0)
      · rfl
      · exact absurd hc h0
    rcases removeFullLinesLoop_cases fuel b BoardHeight 0 (le_refl _) h0f with
      ⟨herr, _⟩ | ⟨b2, hok, _⟩
    · rw [h] at herr
      injection herr
    · rw [h] at hok
      cases hok

theorem removeFullLines_fault (fuel : Nat) (s : TetrisWidget) (e : Fault)
    (h : removeFullLines fuel s = .error e) : e = Fault.outOfFuel := by
  unfold removeFullLines at h
  rcases bind_eq_error h with hloop | ⟨⟨b2, n⟩, _, hrest⟩
  · exact removeFullLinesLoop_fault fuel s.board e hloop
  · dsimp only at hrest
    split at hrest <;> cases hrest

theorem newPiece_ok (s : TetrisWidget) (index : Fin 7) :
    ∃ s2 : TetrisWidget, newPiece s index = .ok s2 := by
  rcases newPiece_cases s index with ⟨_, hnp⟩ | ⟨_, hnp⟩
  · exact ⟨_, hnp⟩
  · exact ⟨_, hnp⟩

theorem pieceDropped_fault (fuel : Nat) (s : TetrisWidget) (index : Fin 7) (e : Fault)
    (hin : InRange s.currentPiece s.currentX s.currentY)
    (h : pieceDropped fuel s index = .error e) : e = Fault.outOfFuel := by
  obtain ⟨b1, hlock, _⟩ := lockScan_cells4 s.board s.currentPiece s.currentX s.currentY hin
  unfold pieceDropped at h
  rw [hlock] at h
  rcases bind_eq_error h with hc | ⟨b, hb, h⟩
  · cases hc
  · rcases bind_eq_error h with hrem | ⟨s1, _, hnew⟩
    · exact removeFullLines_fault fuel _ e hrem
    · obtain ⟨s2, hs2⟩ := newPiece_ok s1 index
      rw [hs2] at hnew
      cases hnew

theorem tryMove_ok (s : TetrisWidget) (p : Piece) (x y : Int) :
    ∃ (r : Bool) (s2 : TetrisWidget), tryMove s p x y = .ok (r, s2) := by
  by_cases h : PlacementOk s.board p x y
  · exact ⟨true, _, tryMove_ok_true s p x y h⟩
  · exact ⟨false, _, tryMove_ok_false s p x y h⟩

theorem oneLineDown_fault (fuel : Nat) (s : TetrisWidget) (index : Fin 7) (e : Fault)
    (hs : Sound s) (h : oneLineDown fuel s index = .error e) : e = Fault.outOfFuel := by
  unfold oneLineDown at h
  rcases bind_eq_error h with hm | ⟨⟨moved, s1⟩, hmove, hrest⟩
  · obtain ⟨r, s2, hok⟩ := tryMove_ok s s.currentPiece s.currentX (s.currentY + 1)
    rw [hok] at hm
    cases hm
  · have hs1 : Sound s1 :=
      tryMove_sound _ _ _ _ _ _ hmove hs hs.2.2.1 hs.2.2.2.1 (by have := hs.1; omega)
    dsimp only at hrest
    cases moved with
    | true =>
      simp only [Bool.not_true, Bool.false_eq_true, if_false] at hrest
      cases hrest
    | false =>
      simp only [Bool.not_false, if_true] at hrest
      rcases bind_eq_error hrest with hd | ⟨s3, _, hret⟩
      · exact pieceDropped_fault fuel s1 index e hs1.2.1 hd
      · cases hret

theorem dropDown_fault (lineFuel : Nat) : ∀ (fuel : Nat) (s : TetrisWidget) (index : Fin 7)
    (e : Fault), Sound s → dropDown lineFuel fuel s index = .error e → e = Fault.outOfFuel := by
  intro fuel
  induction fuel with
  | zero =>
    intro s index e _ h
    injection h with h
    exact h.symm
  | succ fuel ih =>
    intro s index e hs h
    unfold dropDown at h
    rcases bind_eq_error h with hone | ⟨⟨again, s1⟩, hone, hrest⟩
    · exact oneLineDown_fault lineFuel s index e hs hone
    · have hs1 := oneLineDown_sound _ _ _ _ _ hone hs
      dsimp only at hrest
      cases again with
      | true =>
        simp only [if_true] at hrest
        exact ih s1 index e hs1 hrest
      | false =>
        simp only [Bool.false_eq_true, if_false] at hrest
        cases hrest

theorem step_fault (fuel : Nat) (s : TetrisWidget) (c : Command) (index : Fin 7) (e : Fault)
    (hs : Sound s) (h : step fuel s c index = .error e) : e = Fault.outOfFuel := by
  have move : ∀ (p : Piece) (x y : Int),
      (tryMove s p x y >>= fun r => (pure r.2 : Except Fault TetrisWidget)) = .error e →
      e = Fault.outOfFuel := by
    intro p x y hm
    obtain ⟨r, s2, hok⟩ := tryMove_ok s p x y
    rw [hok] at hm
    cases hm
  cases c with
  | key k =>
    cases k with
    | left => exact move _ _ _ h
    | right => exact move _ _ _ h
    | down => exact move _ _ _ h
    | up => exact move _ _ _ h
    | space => exact dropDown_fault fuel fuel s index e hs h
    | other => cases h
  | tick =>
    unfold step at h
    dsimp only at h
    by_cases ht : s.timerActive = true
    · rw [if_pos ht] at h
      unfold timerEvent at h
      rcases bind_eq_error h with hone | ⟨⟨r, s1⟩, _, hret⟩
      · exact oneLineDown_fault fuel s index e hs hone
      · cases hret
    · rw [if_neg ht] at h
      cases h

set_option maxRecDepth 1000000 in
theorem gameOverPlan_check :
    (run 41 freshWidget gameOverPlan).toOption.map actsAfterGameOver = some true := by
  decide

/-- The state after `gameOverPlan`: reachable, "Game Over" shown, timer
stopped. -/
theorem gameOverPlan_state :
    ∃ s : TetrisWidget, run 41 freshWidget gameOverPlan = .ok s ∧ Reachable s ∧
      Event.gameOver ∈ s.events ∧ actsAfterGameOver s = true := by
  obtain ⟨s, hs, hcheck⟩ := toOption_map_true gameOverPlan_check
  refine ⟨s, hs, run_reachable 41 _ _ _ (Reachable.fresh 0 freshWidget (by rfl)) hs, ?_, hcheck⟩
  unfold actsAfterGameOver at hcheck
  simp only [Bool.and_eq_true] at hcheck
  exact List.mem_of_elem_eq_true hcheck.1.1.1.1.1

/-- C17. In every state reachable from a fresh game by any sequence of commands,
states after a failed spawn included, no subscript into the board leaves the
array: tryMove produces its result for any piece and any integer anchor, the
lock loops of pieceDropped produce their board, the scan of removeFullLines on
any board never faults on a row index, and no command faults on a subscript
(a command that does not end can only have run out of its iteration budget). -/
theorem board_access_in_bounds (s : TetrisWidget) (h : Reachable s) :
    (∀ (t : TetrisWidget) (p : Piece) (x y : Int),
      ∃ (r : Bool) (t2 : TetrisWidget), tryMove t p x y = .ok (r, t2)) ∧
    (∃ b1 : Board,
      lockScan s.currentPiece s.currentX s.currentY s.board cells4 = .ok b1) ∧
    (∀ (fuel : Nat) (b : Board),
      removeFullLinesLoop fuel b ((BoardHeight : Int) - 1) 0 ≠ .error .outOfBounds) ∧
    (∀ (fuel : Nat) (index : Fin 7),
      pieceDropped fuel s index ≠ .error .outOfBounds) ∧
    (∀ (fuel : Nat) (c : Command) (index : Fin 7),
      step fuel s c index ≠ .error .outOfBounds) := by
  have hs := reachable_sound s h
  refine ⟨tryMove_ok, ?_, ?_, ?_, ?_⟩
  · obtain ⟨b1, hlock, _⟩ :=
      lockScan_cells4 s.board s.currentPiece s.currentX s.currentY hs.2.1
    exact ⟨b1, hlock⟩
  · intro fuel b hc
    have := removeFullLinesLoop_fault fuel b _ hc
    cases this
  · intro fuel index hc
    have := pieceDropped_fault fuel s index _ hs.2.1 hc
    cases this
  · intro fuel c index hc
    have := step_fault fuel s c index _ hs hc
    cases this

/-- Instance of C17 in a state after a failed spawn: the state reached by
`gameOverPlan`. -/
theorem board_access_in_bounds_witness :
    ∃ s : TetrisWidget, run 41 freshWidget gameOverPlan = .ok s ∧ Reachable s ∧
      Event.gameOver ∈ s.events ∧
      (∀ (t : TetrisWidget) (p : Piece) (x y : Int),
        ∃ (r : Bool) (t2 : TetrisWidget), tryMove t p x y = .ok (r, t2)) ∧
      (∃ b1 : Board,
        lockScan s.currentPiece s.currentX s.currentY s.board cells4 = .ok b1) ∧
      (∀ (fuel : Nat) (b : Board),
        removeFullLinesLoop fuel b ((BoardHeight : Int) - 1) 0 ≠ .error .outOfBounds) ∧
      (∀ (fuel : Nat) (index : Fin 7),
        pieceDropped fuel s index ≠ .error .outOfBounds) ∧
      (∀ (fuel : Nat) (c : Command) (index : Fin 7),
        step fuel s c index ≠ .error .outOfBounds) := by
  obtain ⟨s, hrun, hreach, hgo, _⟩ := gameOverPlan_state
  exact ⟨s, hrun, hreach, hgo, board_access_in_bounds s hreach⟩

/-! ## After a failed spawn -/

theorem moveKeys_frame (fuel : Nat) (s : TetrisWidget) (key : Key) (index : Fin 7)
    (hk : key = Key.left ∨ key = Key.right ∨ key = Key.down ∨ key = Key.up) :
    ∃ s3 : TetrisWidget, keyPressEvent fuel s key index = .ok s3 ∧
      s3.board = s.board ∧ s3.score = s.score := by
  have frame : ∀ (p : Piece) (x y : Int),
      ∃ s3 : TetrisWidget,
        (tryMove s p x y >>= fun r => (pure r.2 : Except Fault TetrisWidget)) = .ok s3 ∧
        s3.board = s.board ∧ s3.score = s.score := by
    intro p x y
    obtain ⟨r, s2, h2⟩ := tryMove_ok s p x y
    refine ⟨s2, by simp [h2, bind, Except.bind, pure, Except.pure], ?_⟩
    rcases tryMove_cases s p x y r s2 h2 with ⟨_, _, hs2⟩ | ⟨_, _, hs2⟩
    · rw [hs2]
      exact ⟨rfl, rfl⟩
    · rw [hs2]
      exact ⟨rfl, rfl⟩
  rcases hk with hk | hk | hk | hk <;> subst hk
  · exact frame s.currentPiece (s.currentX - 1) s.currentY
  · exact frame s.currentPiece (s.currentX + 1) s.currentY
  · exact frame s.currentPiece.rotatedRight s.currentX s.currentY
  · exact frame s.currentPiece.rotatedLeft s.currentX s.currentY

/-- C14 as stated fails. In the state reached by `gameOverPlan` the spawn has
failed and the timer is stopped, yet the down key is not a no-op (the rotated
O piece fits and replaces the active piece) and neither is the space key (the
active piece is locked into row 0 of the board). -/
theorem game_over_not_terminal :
    ∃ s s2 s3 : TetrisWidget,
      run 41 freshWidget gameOverPlan = .ok s ∧ Reachable s ∧
      Event.gameOver ∈ s.events ∧ s.timerActive = false ∧
      step 41 s (Command.key Key.down) 0 = .ok s2 ∧ s2.currentPiece ≠ s.currentPiece ∧
      step 41 s (Command.key Key.space) 0 = .ok s3 ∧ s3.board ≠ s.board := by
  obtain ⟨s, hrun, hreach, hgo, hcheck⟩ := gameOverPlan_state
  unfold actsAfterGameOver at hcheck
  cases hdown : step 41 s (Command.key Key.down) 0 with
  | error e =>
    rw [hdown] at hcheck
    simp at hcheck
  | ok s2 =>
    cases hspace : step 41 s (Command.key Key.space) 0 with
    | error e =>
      rw [hspace] at hcheck
      simp at hcheck
    | ok s3 =>
      rw [hdown, hspace] at hcheck
      simp only [Bool.and_eq_true, Bool.not_eq_true', decide_eq_true_eq] at hcheck
      obtain ⟨⟨⟨⟨⟨_, ht⟩, hp0⟩, hb0⟩, hp2⟩, hb3⟩ := hcheck
      refine ⟨s, s2, s3, hrun, hreach, hgo, ht, hdown, ?_, hspace, ?_⟩
      · intro hc
        rw [hc] at hp2
        exact hp2 hp0
      · intro hc
        rw [hc] at hb3
        exact hb3 hb0

/-- C14, amended. Once a spawn has failed the timer is stopped and stays
stopped: in every reachable state whose log holds the game-over event the timer
is inactive, every gravity tick is a no-op that leaves the whole state (every
board cell, the score, the active piece and its anchor) unchanged, and every
state a command leads to has again a failed spawn in its log and a stopped
timer. The keys are still handled as in a running game; moveLeft, moveRight,
rotateCW and rotateCCW leave every board cell and the score unchanged. -/
theorem game_over_stops_timer (s : TetrisWidget) (h : Reachable s)
    (hgo : Event.gameOver ∈ s.events) :
    s.timerActive = false ∧
    (∀ (fuel : Nat) (index : Fin 7), step fuel s Command.tick index = .ok s) ∧
    (∀ (fuel : Nat) (c : Command) (index : Fin 7) (s2 : TetrisWidget),
      step fuel s c index = .ok s2 →
      Event.gameOver ∈ s2.events ∧ s2.timerActive = false) ∧
    (∀ (fuel : Nat) (key : Key) (index : Fin 7),
      key = Key.left ∨ key = Key.right ∨ key = Key.down ∨ key = Key.up →
      ∃ s2 : TetrisWidget, step fuel s (Command.key key) index = .ok s2 ∧
        s2.board = s.board ∧ s2.score = s.score) := by
  have ht : s.timerActive = false := (reachable_sound s h).2.2.2.2 hgo
  refine ⟨ht, ?_, ?_, ?_⟩
  · intro fuel index
    simp [step, ht]
    rfl
  · intro fuel c index s2 hstep
    obtain ⟨_, ⟨tail, htail⟩, _⟩ := step_progress fuel s s2 c index hstep
    have hgo2 : Event.gameOver ∈ s2.events := by
      rw [htail]
      exact List.mem_append_left _ hgo
    exact ⟨hgo2,
      (reachable_sound s2 (Reachable.next fuel s s2 c index h hstep)).2.2.2.2 hgo2⟩
  · intro fuel key index hk
    exact moveKeys_frame fuel s key index hk

/-- Instance of the amended C14: the state reached by `gameOverPlan`. -/
theorem game_over_stops_timer_witness :
    ∃ s : TetrisWidget, run 41 freshWidget gameOverPlan = .ok s ∧
      (Reachable s ∧ Event.gameOver ∈ s.events) ∧
      s.timerActive = false ∧
      (∀ (fuel : Nat) (index : Fin 7), step fuel s Command.tick index = .ok s) ∧
      (∀ (fuel : Nat) (c : Command) (index : Fin 7) (s2 : TetrisWidget),
        step fuel s c index = .ok s2 →
        Event.gameOver ∈ s2.events ∧ s2.timerActive = false) ∧
      (∀ (fuel : Nat) (key : Key) (index : Fin 7),
        key = Key.left ∨ key = Key.right ∨ key = Key.down ∨ key = Key.up →
        ∃ s2 : TetrisWidget, step fuel s (Command.key key) index = .ok s2 ∧
          s2.board = s.board ∧ s2.score = s.score) := by
  obtain ⟨s, hrun, hreach, hgo, _⟩ := gameOverPlan_state
  exact ⟨s, hrun, ⟨hreach, hgo⟩, game_over_stops_timer s hreach hgo⟩

/-! ## A locked piece blocks -/

theorem cellCount_pos_occupied (p : Piece) (h : 0 < cellCount p) :
    ∃ i j : Fin 4, p.shape i j ≠ 0 := by
  unfold cellCount at h
  obtain ⟨ij, hij⟩ := Finset.card_pos.1 h
  simp only [Finset.mem_filter, Finset.mem_univ, true_and] at hij
  exact ⟨ij.1, ij.2, hij⟩

theorem lock_blocks (b : Board) (p : Piece) (x y : Int) (hcol : p.color ≠ 0)
    (hin : InRange p x y) (hocc : ∃ i j : Fin 4, p.shape i j ≠ 0 ∧ 0 ≤ y + (i.val : Int)) :
    ∃ b1 : Board, lockScan p x y b cells4 = .ok b1 ∧
      (∀ i j : Fin 4, p.shape i j ≠ 0 → 0 ≤ y + (i.val : Int) →
        b1.read (y + (i.val : Int)) (x + (j.val : Int)) = .ok p.color) ∧
      ¬ PlacementOk b1 p x y := by
  obtain ⟨b1, hlock, hcov, _⟩ := lockScan_cells4 b p x y hin
  have hread : ∀ i j : Fin 4, p.shape i j ≠ 0 → 0 ≤ y + (i.val : Int) →
      b1.read (y + (i.val : Int)) (x + (j.val : Int)) = .ok p.color := by
    intro i j hs hy
    obtain ⟨h1, h2, h3⟩ := hin i j hs
    obtain ⟨r, c, hr, hc, hrd⟩ := read_inRange b1 hy h3 h1 h2
    rw [hrd, hcov r c ⟨i, j, hs, hr.symm, hc.symm⟩]
  refine ⟨b1, hlock, hread, ?_⟩
  intro hfit
  obtain ⟨i, j, hs, hy⟩ := hocc
  rcases (hfit i j hs).2.2.2 with hneg | hzero
  · omega
  · rw [hread i j hs hy] at hzero
    injection hzero with hzero
    exact hcol hzero

/-- C19. Every one of the seven palette colours is non-zero, hence distinct
from the empty cell value 0. So for every piece with a non-zero colour that
lies inside the board with an occupied cell in a non-negative row, and in
particular for the active piece of every reachable state, the lock loops of
pieceDropped leave every covered board cell non-empty (it holds the colour),
and the placement test for the same piece at the same anchor returns false on
the resulting board: a locked piece always blocks. -/
theorem locked_piece_blocks :
    (∀ index : Fin 7, colors index ≠ 0) ∧
    (∀ (b : Board) (index : Fin 7) (x y : Int),
      InRange (spawned index) x y → 0 ≤ y →
      ∃ b1 : Board, lockScan (spawned index) x y b cells4 = .ok b1 ∧
        (∀ i j : Fin 4, (spawned index).shape i j ≠ 0 →
          ∃ v : Int, b1.read (y + (i.val : Int)) (x + (j.val : Int)) = .ok v ∧ v ≠ 0) ∧
        ∀ t : TetrisWidget, t.board = b1 →
          tryMove t (spawned index) x y = .ok (false, t)) ∧
    (∀ s : TetrisWidget, Reachable s →
      ∃ b1 : Board,
        lockScan s.currentPiece s.currentX s.currentY s.board cells4 = .ok b1 ∧
        (∀ i j : Fin 4, s.currentPiece.shape i j ≠ 0 →
          ∃ v : Int, b1.read (s.currentY + (i.val : Int)) (s.currentX + (j.val : Int)) =
            .ok v ∧ v ≠ 0) ∧
        ∀ t : TetrisWidget, t.board = b1 →
          tryMove t s.currentPiece s.currentX s.currentY = .ok (false, t)) := by
  have hcolors : ∀ index : Fin 7, colors index ≠ 0 := by decide
  have key : ∀ (b : Board) (p : Piece) (x y : Int), p.color ≠ 0 → InRange p x y → 0 ≤ y →
      0 < cellCount p →
      ∃ b1 : Board, lockScan p x y b cells4 = .ok b1 ∧
        (∀ i j : Fin 4, p.shape i j ≠ 0 →
          ∃ v : Int, b1.read (y + (i.val : Int)) (x + (j.val : Int)) = .ok v ∧ v ≠ 0) ∧
        ∀ t : TetrisWidget, t.board = b1 → tryMove t p x y = .ok (false, t) := by
    intro b p x y hcol hin hy hcount
    obtain ⟨i0, j0, hs0⟩ := cellCount_pos_occupied p hcount
    obtain ⟨b1, hlock, hread, hno⟩ :=
      lock_blocks b p x y hcol hin ⟨i0, j0, hs0, by omega⟩
    refine ⟨b1, hlock, ?_, ?_⟩
    · intro i j hs
      exact ⟨p.color, hread i j hs (by omega), hcol⟩
    · intro t ht
      apply tryMove_ok_false
      rw [ht]
      exact hno
  refine ⟨hcolors, ?_, ?_⟩
  · intro b index x y hin hy
    exact key b (spawned index) x y (hcolors index) hin hy
      (by rw [cellCount_spawned]; decide)
  · intro s hreach
    obtain ⟨hy, hin, hcount, ⟨index, hcol⟩, _⟩ := reachable_sound s hreach
    exact key s.board s.currentPiece s.currentX s.currentY
      (by rw [hcol]; exact hcolors index) hin hy (by rw [hcount]; decide)

/-! ## The scan as a function on the list of rows -/

theorem rowFull_eq_decide (row : Row) : rowFull row = decide (IsFull row) := by
  by_cases h : IsFull row
  · rw [(rowFull_iff row).2 h, decide_eq_true h]
  · rw [(rowFull_false_iff row).2 h, decide_eq_false h]

theorem boardRows_eq_map (b : Board) :
    boardRows b = (List.range BoardHeight).map (rowAt b) := by
  unfold boardRows
  rw [List.ofFn_eq_map, ← List.map_coe_finRange, List.map_map]
  apply List.map_congr_left
  intro r _
  exact (rowAt_val b r).symm

theorem fullBelow_eq_countP (b : Board) (k : Nat) :
    fullBelow b k = ((List.range k).map (rowAt b)).countP (fun row => rowFull row) := by
  induction k with
  | zero => simp [fullBelow]
  | succ k ih =>
    rw [fullBelow_succ, List.range_succ, List.map_append, List.countP_append, ← ih]
    by_cases h : rowFull (rowAt b k) = true
    · simp [h]
    · simp [h]

theorem map_rowAt_shifted (b : Board) {j : Nat} (hj : j < BoardHeight) :
    (List.range (j + 1)).map (rowAt (shifted b j)) =
      rowAt b 0 :: (List.range j).map (rowAt b) := by
  rw [List.range_succ_eq_map, List.map_cons, List.map_map, rowAt_shifted_zero]
  congr 1
  apply List.map_congr_left
  intro i hi
  exact rowAt_shifted_succ b (List.mem_range.1 hi) hj

/-- The rows a finished scan leaves in `0 .. k - 1`, on a board whose top row is
not full: one copy of row 0 for each full row among them, then the rows that
were not full, in order. -/
theorem removeFullLinesLoop_rows : ∀ (fuel : Nat) (b : Board) (k : Nat) (n : Int)
    (b2 : Board) (m : Int),
    k ≤ BoardHeight → rowFull (rowAt b 0) = false →
    removeFullLinesLoop fuel b ((k : Int) - 1) n = .ok (b2, m) →
    (List.range k).map (rowAt b2) =
        List.replicate (fullBelow b k) (rowAt b 0) ++
          ((List.range k).map (rowAt b)).filter (fun row => !rowFull row) ∧
      (∀ r : Fin BoardHeight, k ≤ r.val → b2 r = b r) := by
  intro fuel
  induction fuel with
  | zero =>
    intro b k n b2 m _ _ h
    cases h
  | succ fuel ih =>
    intro b k n b2 m hk h0 h
    cases k with
    | zero =>
      unfold removeFullLinesLoop at h
      have hneg : ¬ (((0 : Nat) : Int) - 1 ≥ 0) := by omega
      rw [if_neg hneg] at h
      injection h with h
      injection h with hb _
      subst hb
      exact ⟨by simp [fullBelow], fun _ _ => rfl⟩
    | succ j =>
      have hj : j < BoardHeight := by omega
      have hy : (((j + 1 : Nat) : Int) - 1) = (j : Int) := by push_cast; ring
      have hback : ((j : Int) + 1) - 1 = (((j + 1 : Nat) : Int) - 1) := by push_cast; ring
      rw [hy] at h
      unfold removeFullLinesLoop at h
      have hge : (j : Int) ≥ 0 := by omega
      rw [if_pos hge, readRow_nat b hj] at h
      simp only [bind, Except.bind] at h
      by_cases hfull : rowFull (rowAt b j) = true
      · rw [if_pos hfull, Int.toNat_ofNat, shiftRows_spec j b hj] at h
        dsimp only at h
        rw [hback] at h
        have h0s : rowFull (rowAt (shifted b j) 0) = false := by
          rw [rowAt_shifted_zero]
          exact h0
        obtain ⟨hrows, hab⟩ := ih (shifted b j) (j + 1) (n + 1) b2 m hk h0s h
        have hcount : fullBelow (shifted b j) (j + 1) = fullBelow b j := by
          rw [fullBelow_shifted b hj, h0]
          simp
        have hsucc : fullBelow b (j + 1) = fullBelow b j + 1 := by
          rw [fullBelow_succ, hfull]
          simp
        refine ⟨?_, ?_⟩
        · rw [hrows, hcount, rowAt_shifted_zero, map_rowAt_shifted b hj, hsucc,
            List.filter_cons_of_pos (by simp [h0]), List.replicate_succ', List.range_succ,
            List.map_append, List.filter_append, List.append_assoc]
          simp [hfull]
        · intro r hr
          rw [hab r hr, shifted_above b j r (by omega)]
      · have hff : rowFull (rowAt b j) = false := by
          cases hc : rowFull (rowAt b j)
          · rfl
          · exact absurd hc hfull
        rw [if_neg hfull] at h
        obtain ⟨hrows, hab⟩ := ih b j n b2 m (by omega) h0 h
        have hsucc : fullBelow b (j + 1) = fullBelow b j := by
          rw [fullBelow_succ, hff]
          simp
        refine ⟨?_, fun r hr => hab r (by omega)⟩
        have hrowj : rowAt b2 j = rowAt b j := by
          rw [rowAt_lt _ hj, rowAt_lt _ hj]
          exact hab ⟨j, hj⟩ (le_refl _)
        rw [List.range_succ, List.map_append, List.map_append, hrows, hsucc, List.filter_append,
          List.append_assoc]
        simp [hrowj, hff]

theorem compactedRows_boardRows (b : Board) :
    compactedRows (boardRows b) (b topRow) =
      List.replicate (fullBelow b BoardHeight) (rowAt b 0) ++
        ((List.range BoardHeight).map (rowAt b)).filter (fun row => !rowFull row) := by
  have hfun1 : (fun row : Row => decide (IsFull row)) = fun row => rowFull row := by
    funext row
    exact (rowFull_eq_decide row).symm
  have hfun2 : (fun row : Row => !decide (IsFull row)) = fun row => !rowFull row := by
    funext row
    rw [rowFull_eq_decide]
  unfold compactedRows
  rw [hfun1, hfun2, boardRows_eq_map, ← fullBelow_eq_countP]
  rfl

/-- C16. For every board whose top row is not full, the in-place scan of
removeFullLines, given a budget above twice the board height, ends with the
number of full rows as its count and with a board whose rows are the
list-level compaction of the rows it started from: the rows that were not full,
in their original order, at the bottom, and above them one copy of the
original row 0 (not an empty row) for each cleared row. -/
theorem removeFullLines_refines_compaction (b : Board) (fuel : Nat)
    (h0 : ¬ IsFull (b topRow)) (hfuel : 2 * BoardHeight < fuel) :
    ∃ b2 : Board,
      removeFullLinesLoop fuel b ((BoardHeight : Int) - 1) 0 =
        .ok (b2, (fullRowCount b : Int)) ∧
      boardRows b2 = compactedRows (boardRows b) (b topRow) ∧
      boardRows b2 =
        List.replicate (fullRowCount b) (b topRow) ++
          (boardRows b).filter (fun row => !decide (IsFull row)) := by
  obtain ⟨b2, hok, _, _⟩ := removeFullLinesLoop_total b fuel h0 hfuel
  have h0f : rowFull (rowAt b 0) = false := by
    rw [rowFull_false_iff]
    exact h0
  obtain ⟨hrows, _⟩ :=
    removeFullLinesLoop_rows fuel b BoardHeight 0 b2 _ (le_refl _) h0f hok
  have hspec : boardRows b2 = compactedRows (boardRows b) (b topRow) := by
    rw [compactedRows_boardRows, boardRows_eq_map]
    exact hrows
  refine ⟨b2, hok, hspec, ?_⟩
  rw [hspec]
  unfold compactedRows
  congr 2
  have hfun1 : (fun row : Row => decide (IsFull row)) = fun row => rowFull row := by
    funext row
    exact (rowFull_eq_decide row).symm
  rw [hfun1, boardRows_eq_map, ← fullBelow_eq_countP, fullBelow_eq_fullRowCount]

/-- Instance of C16: on the board whose column 0 is occupied in every row and
whose row 19 is full, the scan clears one row; the result has a copy of row 0
on top of the nineteen rows that were not full. -/
theorem removeFullLines_refines_compaction_witness :
    (¬ IsFull (towerBoard topRow) ∧ 2 * BoardHeight < 41) ∧
    (∃ b2 : Board,
      removeFullLinesLoop 41 towerBoard ((BoardHeight : Int) - 1) 0 =
        .ok (b2, (fullRowCount towerBoard : Int)) ∧
      boardRows b2 = compactedRows (boardRows towerBoard) (towerBoard topRow) ∧
      boardRows b2 =
        List.replicate (fullRowCount towerBoard) (towerBoard topRow) ++
          (boardRows towerBoard).filter (fun row => !decide (IsFull row))) ∧
    fullRowCount towerBoard = 1 ∧
    (compactedRows (boardRows towerBoard) (towerBoard topRow)).length = 20 :=
  ⟨⟨by decide, by decide⟩,
    removeFullLines_refines_compaction towerBoard 41 (by decide) (by decide),
    by decide, by decide⟩

/-! ## One-row descent on the empty board -/

theorem lowestRow_ge (p : Piece) (y : Int) (i j : Fin 4) (h : p.shape i j ≠ 0) :
    y + (i.val : Int) ≤ lowestRow p y := by
  unfold lowestRow
  have hmem : i ∈ Finset.univ.filter (fun i : Fin 4 => ∃ j : Fin 4, p.shape i j ≠ 0) := by
    simp only [Finset.mem_filter, Finset.mem_univ, true_and]
    exact ⟨j, h⟩
  have hle : (fun i : Fin 4 => i.val) i ≤
      (Finset.univ.filter (fun i : Fin 4 => ∃ j : Fin 4, p.shape i j ≠ 0)).sup
        (fun i => i.val) := Finset.le_sup hmem
  have hle2 : i.val ≤
      (Finset.univ.filter (fun i : Fin 4 => ∃ j : Fin 4, p.shape i j ≠ 0)).sup
        (fun i => i.val) := hle
  omega

theorem lowestRow_attained (p : Piece) (y : Int) (h : ∃ i j : Fin 4, p.shape i j ≠ 0) :
    ∃ i j : Fin 4, p.shape i j ≠ 0 ∧ lowestRow p y = y + (i.val : Int) := by
  obtain ⟨i0, j0, h0⟩ := h
  have hne : (Finset.univ.filter (fun i : Fin 4 => ∃ j : Fin 4, p.shape i j ≠ 0)).Nonempty :=
    ⟨i0, by simp only [Finset.mem_filter, Finset.mem_univ, true_and]; exact ⟨j0, h0⟩⟩
  obtain ⟨i, hi, hsup⟩ := Finset.exists_mem_eq_sup _ hne (fun i : Fin 4 => i.val)
  simp only [Finset.mem_filter, Finset.mem_univ, true_and] at hi
  obtain ⟨j, hj⟩ := hi
  refine ⟨i, j, hj, ?_⟩
  unfold lowestRow
  rw [hsup]

/-- On a board without a full row among the rows `0 .. k - 1` the scan from
row `k - 1` changes nothing and counts nothing. -/
theorem removeFullLinesLoop_noFull : ∀ (fuel : Nat) (b : Board) (k : Nat) (n : Int),
    k ≤ BoardHeight → (∀ i, i < k → rowFull (rowAt b i) = false) → k < fuel →
    removeFullLinesLoop fuel b ((k : Int) - 1) n = .ok (b, n) := by
  intro fuel
  induction fuel with
  | zero =>
    intro b k n _ _ hf
    omega
  | succ fuel ih =>
    intro b k n hk hnf hf
    cases k with
    | zero =>
      unfold removeFullLinesLoop
      have hneg : ¬ (((0 : Nat) : Int) - 1 ≥ 0) := by omega
      rw [if_neg hneg]
      rfl
    | succ j =>
      have hj : j < BoardHeight := by omega
      have hy : (((j + 1 : Nat) : Int) - 1) = (j : Int) := by push_cast; ring
      rw [hy]
      unfold removeFullLinesLoop
      have hge : (j : Int) ≥ 0 := by omega
      rw [if_pos hge, readRow_nat b hj]
      simp only [bind, Except.bind]
      have hff : ¬ rowFull (rowAt b j) = true := by
        rw [hnf j (by omega)]
        simp
      rw [if_neg hff]
      exact ih b j n (by omega) (fun i hi => hnf i (by omega)) (by omega)

/-- Locking a piece into the empty board fills no row: a mask is four columns
wide, the board ten. -/
theorem lock_empty_no_full_row (b b1 : Board) (p : Piece) (x y : Int)
    (hempty : ∀ (r : Fin BoardHeight) (c : Fin BoardWidth), b r c = 0)
    (hunch : ∀ (r : Fin BoardHeight) (c : Fin BoardWidth),
      (¬ ∃ i j : Fin 4, p.shape i j ≠ 0 ∧ y + (i.val : Int) = (r.val : Int) ∧
        x + (j.val : Int) = (c.val : Int)) → b1 r c = b r c) :
    ∀ i, i < BoardHeight → rowFull (rowAt b1 i) = false := by
  intro i hi
  rw [rowFull_false_iff, rowAt_lt _ hi]
  intro hfull
  by_cases hx : 1 ≤ x
  · apply hfull ⟨0, by decide⟩
    rw [hunch ⟨i, hi⟩ ⟨0, by decide⟩]
    · exact hempty _ _
    · rintro ⟨i2, j2, _, _, hc⟩
      simp only [Nat.cast_zero] at hc
      omega
  · apply hfull ⟨9, by decide⟩
    rw [hunch ⟨i, hi⟩ ⟨9, by decide⟩]
    · exact hempty _ _
    · rintro ⟨i2, j2, _, _, hc⟩
      have := j2.isLt
      simp only [Nat.cast_ofNat] at hc
      omega

/-- C12. On an empty board, for every piece with at least one occupied mask
cell legally placed at anchor (x, y), the board row of its lowest occupied cell
is at most BoardHeight - 1, and oneLineDown returns true exactly when that row
is less than BoardHeight - 1; it then moves the anchor to (x, y + 1) and changes
nothing else but the repaint log. When that row equals BoardHeight - 1 it
returns false and the landing is triggered: the piece is locked into the board
at its current anchor (every covered cell holds its colour, every other cell
stays empty, no row is cleared, the score is unchanged) and the next shape is
spawned. -/
theorem oneLineDown_on_empty_board (s : TetrisWidget) (fuel : Nat) (index : Fin 7)
    (hempty : ∀ (r : Fin BoardHeight) (c : Fin BoardWidth), s.board r c = 0)
    (hocc : ∃ i j : Fin 4, s.currentPiece.shape i j ≠ 0)
    (hfit : PlacementOk s.board s.currentPiece s.currentX s.currentY)
    (hfuel : 2 * BoardHeight < fuel) :
    lowestRow s.currentPiece s.currentY ≤ (BoardHeight : Int) - 1 ∧
    ∃ (r : Bool) (s2 : TetrisWidget), oneLineDown fuel s index = .ok (r, s2) ∧
      (r = true ↔ lowestRow s.currentPiece s.currentY < (BoardHeight : Int) - 1) ∧
      (r = true →
        s2 = { s with currentY := s.currentY + 1, events := s.events ++ [Event.update] }) ∧
      (r = false →
        lowestRow s.currentPiece s.currentY = (BoardHeight : Int) - 1 ∧
        lockScan s.currentPiece s.currentX s.currentY s.board cells4 = .ok s2.board ∧
        (∀ (r : Fin BoardHeight) (c : Fin BoardWidth),
          (∃ i j : Fin 4, s.currentPiece.shape i j ≠ 0 ∧
            s.currentY + (i.val : Int) = (r.val : Int) ∧
            s.currentX + (j.val : Int) = (c.val : Int)) →
          s2.board r c = s.currentPiece.color) ∧
        (∀ (r : Fin BoardHeight) (c : Fin BoardWidth),
          (¬ ∃ i j : Fin 4, s.currentPiece.shape i j ≠ 0 ∧
            s.currentY + (i.val : Int) = (r.val : Int) ∧
            s.currentX + (j.val : Int) = (c.val : Int)) →
          s2.board r c = 0) ∧
        s2.score = s.score ∧ s2.currentPiece = spawned index ∧
        s2.currentX = 3 ∧ s2.currentY = 0) := by
  obtain ⟨im, jm, hm, hlow⟩ := lowestRow_attained s.currentPiece s.currentY hocc
  have hle : lowestRow s.currentPiece s.currentY ≤ (BoardHeight : Int) - 1 := by
    have := (hfit im jm hm).2.2.1
    omega
  refine ⟨hle, ?_⟩
  have hin : InRange s.currentPiece s.currentX s.currentY := by
    intro i j hs
    obtain ⟨h1, h2, h3, _⟩ := hfit i j hs
    exact ⟨h1, h2, h3⟩
  by_cases hlt : lowestRow s.currentPiece s.currentY < (BoardHeight : Int) - 1
  · have hdown : PlacementOk s.board s.currentPiece s.currentX (s.currentY + 1) := by
      intro i j hs
      obtain ⟨h1, h2, _, _⟩ := hfit i j hs
      have hge := lowestRow_ge s.currentPiece s.currentY i j hs
      refine ⟨h1, h2, by omega, ?_⟩
      by_cases hneg : s.currentY + 1 + (i.val : Int) < 0
      · exact Or.inl hneg
      · right
        obtain ⟨r, c, _, _, hrd⟩ :=
          read_inRange s.board (show 0 ≤ s.currentY + 1 + (i.val : Int) by omega)
            (show s.currentY + 1 + (i.val : Int) < (BoardHeight : Int) by omega) h1 h2
        rw [hrd, hempty r c]
    have htry := tryMove_ok_true s s.currentPiece s.currentX (s.currentY + 1) hdown
    refine ⟨true, _, by simp only [oneLineDown, htry, bind, Except.bind]; rfl, ?_, ?_, ?_⟩
    · exact ⟨fun _ => hlt, fun _ => rfl⟩
    · intro _
      rfl
    · intro hc
      cases hc
  · have heq : lowestRow s.currentPiece s.currentY = (BoardHeight : Int) - 1 := by omega
    have hnodown : ¬ PlacementOk s.board s.currentPiece s.currentX (s.currentY + 1) := by
      intro hc
      have := (hc im jm hm).2.2.1
      omega
    have htry := tryMove_ok_false s s.currentPiece s.currentX (s.currentY + 1) hnodown
    obtain ⟨b1, hlock, hcov, hunch⟩ :=
      lockScan_cells4 s.board s.currentPiece s.currentX s.currentY hin
    have hnf := lock_empty_no_full_row s.board b1 s.currentPiece s.currentX s.currentY
      hempty hunch
    have hloop := removeFullLinesLoop_noFull fuel b1 BoardHeight 0 (le_refl _) hnf (by omega)
    have hrem : removeFullLines fuel { s with board := b1 } = .ok { s with board := b1 } := by
      simp only [removeFullLines, hloop, bind, Except.bind]
      rfl
    have hpd : pieceDropped fuel s index = newPiece { s with board := b1 } index := by
      simp only [pieceDropped, hlock, hrem, bind, Except.bind]
    have hfinish : ∀ s2 : TetrisWidget, newPiece { s with board := b1 } index = .ok s2 →
        oneLineDown fuel s index = .ok (false, s2) := by
      intro s2 hs2
      simp only [oneLineDown, htry, bind, Except.bind, hpd, hs2]
      rfl
    have hunch0 : ∀ (r : Fin BoardHeight) (c : Fin BoardWidth),
        (¬ ∃ i j : Fin 4, s.currentPiece.shape i j ≠ 0 ∧
          s.currentY + (i.val : Int) = (r.val : Int) ∧
          s.currentX + (j.val : Int) = (c.val : Int)) → b1 r c = 0 := by
      intro r c hn
      rw [hunch r c hn, hempty r c]
    rcases newPiece_cases { s with board := b1 } index with ⟨_, hnp⟩ | ⟨_, hnp⟩
    · refine ⟨false, _, hfinish _ hnp, ?_, ?_, ?_⟩
      · exact ⟨(fun hc => Bool.noConfusion hc), (fun hc => absurd hc hlt)⟩
      · intro hc
        cases hc
      · intro _
        exact ⟨heq, hlock, hcov, hunch0, rfl, rfl, spawn_anchor, rfl⟩
    · refine ⟨false, _, hfinish _ hnp, ?_, ?_, ?_⟩
      · exact ⟨(fun hc => Bool.noConfusion hc), (fun hc => absurd hc hlt)⟩
      · intro hc
        cases hc
      · intro _
        exact ⟨heq, hlock, hcov, hunch0, rfl, rfl, spawn_anchor, rfl⟩

/-- Instance of C12: the I piece lying flat on row 19 of the empty board. Its
lowest occupied row is 19 = BoardHeight - 1, so oneLineDown returns false and
locks it: cell (19, 3) holds its colour, cell (18, 3) stays empty. -/
theorem oneLineDown_on_empty_board_witness :
    ((∀ (r : Fin BoardHeight) (c : Fin BoardWidth), bottomWidget.board r c = 0) ∧
      (∃ i j : Fin 4, bottomWidget.currentPiece.shape i j ≠ 0) ∧
      PlacementOk bottomWidget.board bottomWidget.currentPiece bottomWidget.currentX
        bottomWidget.currentY ∧
      2 * BoardHeight < 41) ∧
    (lowestRow bottomWidget.currentPiece bottomWidget.currentY ≤ (BoardHeight : Int) - 1 ∧
    ∃ (r : Bool) (s2 : TetrisWidget), oneLineDown 41 bottomWidget 1 = .ok (r, s2) ∧
      (r = true ↔
        lowestRow bottomWidget.currentPiece bottomWidget.currentY < (BoardHeight : Int) - 1) ∧
      (r = true →
        s2 = { bottomWidget with currentY := bottomWidget.currentY + 1,
                                 events := bottomWidget.events ++ [Event.update] }) ∧
      (r = false →
        lowestRow bottomWidget.currentPiece bottomWidget.currentY = (BoardHeight : Int) - 1 ∧
        lockScan bottomWidget.currentPiece bottomWidget.currentX bottomWidget.currentY
          bottomWidget.board cells4 = .ok s2.board ∧
        (∀ (r : Fin BoardHeight) (c : Fin BoardWidth),
          (∃ i j : Fin 4, bottomWidget.currentPiece.shape i j ≠ 0 ∧
            bottomWidget.currentY + (i.val : Int) = (r.val : Int) ∧
            bottomWidget.currentX + (j.val : Int) = (c.val : Int)) →
          s2.board r c = bottomWidget.currentPiece.color) ∧
        (∀ (r : Fin BoardHeight) (c : Fin BoardWidth),
          (¬ ∃ i j : Fin 4, bottomWidget.currentPiece.shape i j ≠ 0 ∧
            bottomWidget.currentY + (i.val : Int) = (r.val : Int) ∧
            bottomWidget.currentX + (j.val : Int) = (c.val : Int)) →
          s2.board r c = 0) ∧
        s2.score = bottomWidget.score ∧ s2.currentPiece = spawned 1 ∧
        s2.currentX = 3 ∧ s2.currentY = 0)) ∧
    lowestRow bottomWidget.currentPiece bottomWidget.currentY = 19 ∧
    (oneLineDown 41 bottomWidget 1).toOption.map
        (fun r => (r.1, r.2.board ⟨19, by decide⟩ ⟨3, by decide⟩,
          r.2.board ⟨18, by decide⟩ ⟨3, by decide⟩)) = some (false, 255, 0) ∧
    (oneLineDown 41 (widgetOn emptyBoard) 1).toOption.map
        (fun r => (r.1, r.2.currentX, r.2.currentY)) = some (true, 3, 1) :=
  ⟨⟨by decide, by decide, by decide, by decide⟩,
    oneLineDown_on_empty_board bottomWidget 41 1 (by decide) (by decide) (by decide)
      (by decide),
    by decide, by decide, by decide⟩

/-! ## The hard drop -/

theorem descended_zero (s : TetrisWidget) : descended s 0 = s := by
  cases s
  simp [descended]

theorem descended_succ (s : TetrisWidget) (k : Nat) :
    descended { s with currentY := s.currentY + 1, events := s.events ++ [Event.update] } k =
      descended s (k + 1) := by
  cases s
  simp only [descended, TetrisWidget.mk.injEq, true_and]
  refine ⟨?_, ?_⟩
  · push_cast
    ring
  · rw [List.append_assoc, List.replicate_succ]
    rfl

/-- The loop of `dropDown`: `k` successful descents, then the landing. -/
theorem dropDown_steps (lineFuel : Nat) (index : Fin 7) : ∀ (k : Nat) (s : TetrisWidget)
    (fuel : Nat),
    (∀ m : Nat, m < k →
      PlacementOk s.board s.currentPiece s.currentX (s.currentY + (m : Int) + 1)) →
    ¬ PlacementOk s.board s.currentPiece s.currentX (s.currentY + (k : Int) + 1) →
    k < fuel →
    dropDown lineFuel fuel s index = pieceDropped lineFuel (descended s k) index := by
  intro k
  induction k with
  | zero =>
    intro s fuel _ hno hf
    cases fuel with
    | zero => omega
    | succ f =>
      have hno1 : ¬ PlacementOk s.board s.currentPiece s.currentX (s.currentY + 1) := by
        simpa using hno
      have htry := tryMove_ok_false s s.currentPiece s.currentX (s.currentY + 1) hno1
      rw [descended_zero]
      unfold dropDown
      cases hpd : pieceDropped lineFuel s index with
      | error e => simp only [oneLineDown, htry, bind, Except.bind, Bool.not_false, hpd, if_true]
      | ok s2 =>
        simp only [oneLineDown, htry, bind, Except.bind, Bool.not_false, hpd, if_true]
        rfl
  | succ k ih =>
    intro s fuel hyes hno hf
    cases fuel with
    | zero => omega
    | succ f =>
      have hfirst : PlacementOk s.board s.currentPiece s.currentX (s.currentY + 1) := by
        have := hyes 0 (by omega)
        simpa using this
      have htry := tryMove_ok_true s s.currentPiece s.currentX (s.currentY + 1) hfirst
      have hstep : dropDown lineFuel (f + 1) s index =
          dropDown lineFuel f
            { s with currentY := s.currentY + 1, events := s.events ++ [Event.update] }
            index := by
        conv_lhs => unfold dropDown
        simp only [oneLineDown, htry, bind, Except.bind]
        rfl
      rw [hstep, ← descended_succ]
      apply ih
      · intro m hm
        have := hyes (m + 1) (by omega)
        have heq : s.currentY + ((m + 1 : Nat) : Int) + 1 = s.currentY + 1 + (m : Int) + 1 := by
          push_cast
          ring
        rw [heq] at this
        exact this
      · have heq : s.currentY + ((k + 1 : Nat) : Int) + 1 = s.currentY + 1 + (k : Int) + 1 := by
          push_cast
          ring
        rw [heq] at hno
        exact hno
      · omega

/-- In every reachable state the active piece has an occupied cell, a
non-negative anchor row, and lies inside the board. -/
theorem reachable_placed (s : TetrisWidget) (h : Reachable s) :
    (∃ i j : Fin 4, s.currentPiece.shape i j ≠ 0) ∧ 0 ≤ s.currentY ∧
      InRange s.currentPiece s.currentX s.currentY := by
  obtain ⟨hy, hin, hcount, _, _⟩ := reachable_sound s h
  exact ⟨cellCount_pos_occupied s.currentPiece (by rw [hcount]; decide), hy, hin⟩

/-- C11. For every board and every active piece with at least one occupied
mask cell placed on the board at an anchor (x, y) with y >= 0 (placed: every
occupied cell has 0 <= x + j < BoardWidth and y + i < BoardHeight, as it is in
every reachable state), the hard drop performs a finite number k < BoardHeight
of successful one-row descents, where k is the least non-negative integer such
that the piece cannot be placed at (x, y + k + 1), and then lands: the piece is
locked into the board at anchor (x, y + k), its x and mask unchanged, before
the full lines are removed and the next piece is spawned. -/
theorem dropDown_descends (s : TetrisWidget)
    (hocc : ∃ i j : Fin 4, s.currentPiece.shape i j ≠ 0) (hy : 0 ≤ s.currentY)
    (hin : InRange s.currentPiece s.currentX s.currentY) :
    ∃ k : Nat, k < BoardHeight ∧
      ¬ PlacementOk s.board s.currentPiece s.currentX (s.currentY + (k : Int) + 1) ∧
      (∀ m : Nat, m < k →
        PlacementOk s.board s.currentPiece s.currentX (s.currentY + (m : Int) + 1)) ∧
      (∀ (lineFuel fuel : Nat) (index : Fin 7), k < fuel →
        dropDown lineFuel fuel s index = pieceDropped lineFuel (descended s k) index) ∧
      (descended s k).board = s.board ∧
      (descended s k).currentPiece = s.currentPiece ∧
      (descended s k).currentX = s.currentX ∧
      (descended s k).currentY = s.currentY + (k : Int) ∧
      (∃ b1 : Board,
        lockScan s.currentPiece s.currentX (s.currentY + (k : Int)) s.board cells4 = .ok b1 ∧
        (∀ (r : Fin BoardHeight) (c : Fin BoardWidth),
          (∃ i j : Fin 4, s.currentPiece.shape i j ≠ 0 ∧
            s.currentY + (k : Int) + (i.val : Int) = (r.val : Int) ∧
            s.currentX + (j.val : Int) = (c.val : Int)) → b1 r c = s.currentPiece.color) ∧
        (∀ (r : Fin BoardHeight) (c : Fin BoardWidth),
          (¬ ∃ i j : Fin 4, s.currentPiece.shape i j ≠ 0 ∧
            s.currentY + (k : Int) + (i.val : Int) = (r.val : Int) ∧
            s.currentX + (j.val : Int) = (c.val : Int)) → b1 r c = s.board r c)) := by
  obtain ⟨i0, j0, h0⟩ := hocc
  have hex : ∃ k : Nat,
      ¬ PlacementOk s.board s.currentPiece s.currentX (s.currentY + (k : Int) + 1) := by
    refine ⟨BoardHeight - 1, ?_⟩
    intro hc
    have h3 := (hc i0 j0 h0).2.2.1
    have hH : ((BoardHeight - 1 : Nat) : Int) = (BoardHeight : Int) - 1 := by decide
    rw [hH] at h3
    omega
  have hfind := Nat.find_spec hex
  have hmin : ∀ m : Nat, m < Nat.find hex →
      PlacementOk s.board s.currentPiece s.currentX (s.currentY + (m : Int) + 1) := by
    intro m hm
    exact Decidable.of_not_not (Nat.find_min hex hm)
  have hlt : Nat.find hex < BoardHeight := by
    have hle : Nat.find hex ≤ BoardHeight - 1 := by
      apply Nat.find_min' hex
      intro hc
      have h3 := (hc i0 j0 h0).2.2.1
      have hH : ((BoardHeight - 1 : Nat) : Int) = (BoardHeight : Int) - 1 := by decide
      rw [hH] at h3
      omega
    have hpos : 0 < BoardHeight := by decide
    omega
  have hink : InRange s.currentPiece s.currentX (s.currentY + (Nat.find hex : Int)) := by
    cases hk : Nat.find hex with
    | zero =>
      simpa using hin
    | succ m =>
      have hp := hmin m (by omega)
      intro i j hs
      obtain ⟨h1, h2, h3, _⟩ := hp i j hs
      refine ⟨h1, h2, ?_⟩
      push_cast
      omega
  obtain ⟨b1, hlock, hcov, hunch⟩ :=
    lockScan_cells4 s.board s.currentPiece s.currentX (s.currentY + (Nat.find hex : Int)) hink
  exact ⟨Nat.find hex, hlt, hfind, hmin,
    fun lineFuel fuel index hf => dropDown_steps lineFuel index _ s fuel hmin hfind hf,
    rfl, rfl, rfl, rfl, b1, hlock, hcov, hunch⟩

/-- Instance of C11: the fresh game, whose I piece at anchor (3, 0)
of the empty board descends 19 rows and is locked on row 19. -/
theorem dropDown_descends_witness :
    ((∃ i j : Fin 4, freshWidget.currentPiece.shape i j ≠ 0) ∧ 0 ≤ freshWidget.currentY ∧
      InRange freshWidget.currentPiece freshWidget.currentX freshWidget.currentY) ∧
    (∃ k : Nat, k < BoardHeight ∧
      ¬ PlacementOk freshWidget.board freshWidget.currentPiece freshWidget.currentX
        (freshWidget.currentY + (k : Int) + 1) ∧
      (∀ m : Nat, m < k →
        PlacementOk freshWidget.board freshWidget.currentPiece freshWidget.currentX
          (freshWidget.currentY + (m : Int) + 1)) ∧
      (∀ (lineFuel fuel : Nat) (index : Fin 7), k < fuel →
        dropDown lineFuel fuel freshWidget index =
          pieceDropped lineFuel (descended freshWidget k) index) ∧
      (descended freshWidget k).board = freshWidget.board ∧
      (descended freshWidget k).currentPiece = freshWidget.currentPiece ∧
      (descended freshWidget k).currentX = freshWidget.currentX ∧
      (descended freshWidget k).currentY = freshWidget.currentY + (k : Int) ∧
      (∃ b1 : Board,
        lockScan freshWidget.currentPiece freshWidget.currentX
          (freshWidget.currentY + (k : Int)) freshWidget.board cells4 = .ok b1 ∧
        (∀ (r : Fin BoardHeight) (c : Fin BoardWidth),
          (∃ i j : Fin 4, freshWidget.currentPiece.shape i j ≠ 0 ∧
            freshWidget.currentY + (k : Int) + (i.val : Int) = (r.val : Int) ∧
            freshWidget.currentX + (j.val : Int) = (c.val : Int)) →
          b1 r c = freshWidget.currentPiece.color) ∧
        (∀ (r : Fin BoardHeight) (c : Fin BoardWidth),
          (¬ ∃ i j : Fin 4, freshWidget.currentPiece.shape i j ≠ 0 ∧
            freshWidget.currentY + (k : Int) + (i.val : Int) = (r.val : Int) ∧
            freshWidget.currentX + (j.val : Int) = (c.val : Int)) →
          b1 r c = freshWidget.board r c))) ∧
    (dropDown 41 41 freshWidget 1).toOption.map
        (fun s2 => (s2.board ⟨19, by decide⟩ ⟨3, by decide⟩,
          s2.board ⟨18, by decide⟩ ⟨3, by decide⟩, s2.currentY)) = some (255, 0, 0) :=
  ⟨⟨by decide, by decide, by decide⟩,
    dropDown_descends freshWidget (by decide) (by decide) (by decide),
    by decide⟩

end TetrisWidget
